import Mathlib

/-!
Verification of the smtp-suite SMTP client library.

Byte strings are modelled as `List Nat` (one `Nat` per octet).  JavaScript
strings reaching the parsers are treated at the byte level; the whitespace
class used by `trim` and by the split regex is modelled by the ASCII
whitespace bytes (HT, LF, VT, FF, CR, SP), which are the only whitespace
bytes that can occur in SMTP command and reply lines.
-/

/-- Decidable equality of Except values, used to evaluate the models on
concrete inputs. -/
instance {ε α : Type} [DecidableEq ε] [DecidableEq α] : DecidableEq (Except ε α) := fun a b =>
  match a, b with
  | .error e1, .error e2 =>
    if h : e1 = e2 then isTrue (by rw [h]) else isFalse (fun hc => h (Except.error.inj hc))
  | .ok v1, .ok v2 =>
    if h : v1 = v2 then isTrue (by rw [h]) else isFalse (fun hc => h (Except.ok.inj hc))
  | .error _, .ok _ => isFalse Except.noConfusion
  | .ok _, .error _ => isFalse Except.noConfusion

/-- Whitespace test mirroring the character class used by the source's
calls to trim and to the whitespace-run split regex (ASCII subset). -/
def isWs (b : Nat) : Bool :=
  b = 9 || b = 10 || b = 11 || b = 12 || b = 13 || b = 32

/-- Both-ends trim, as JavaScript trim() restricted to the byte alphabet. -/
def trimWs (l : List Nat) : List Nat :=
  (((l.dropWhile isWs).reverse.dropWhile isWs)).reverse

/-- Right trim, as JavaScript trimRight(). -/
def trimRightWs (l : List Nat) : List Nat :=
  (l.reverse.dropWhile isWs).reverse

/-- Fueled worker for the whitespace split; the fuel strictly exceeds
the number of steps whenever it is at least the list length, so the
zero-fuel non-nil case is unreachable from wsSplit. -/
def wsSplitF : Nat → List Nat → List (List Nat)
  | _, [] => []
  | 0, _ :: _ => []
  | n + 1, b :: rest =>
    ((b :: rest).takeWhile (fun x => !isWs x)) ::
      wsSplitF n (((b :: rest).dropWhile (fun x => !isWs x)).dropWhile isWs)

/-- Splitting on runs of whitespace, mirroring String.split with the
whitespace-run regex on inputs without leading or trailing whitespace
(the parser always trims first).  Each step takes the maximal non-ws
run as a token and drops the following ws run. -/
def wsSplit (l : List Nat) : List (List Nat) :=
  wsSplitF l.length l

/-- JavaScript split of the empty string yields one empty piece. -/
def splitWs (l : List Nat) : List (List Nat) :=
  if l = [] then [[]] else wsSplit l

/-- Tokens joined by single spaces (0x20). -/
def joinSp : List (List Nat) → List Nat
  | [] => []
  | [t] => t
  | t :: ts => t ++ 32 :: joinSp ts

/-- Byte string constants for the command grammar. -/
def strEHLO : List Nat := [69, 72, 76, 79]

/-- MAIL as bytes. -/
def strMAIL : List Nat := [77, 65, 73, 76]

/-- RCPT as bytes. -/
def strRCPT : List Nat := [82, 67, 80, 84]

/-- The FROM: tag as bytes. -/
def strFROM : List Nat := [70, 82, 79, 77, 58]

/-- The TO: tag as bytes. -/
def strTO : List Nat := [84, 79, 58]

/-- NOOP as bytes. -/
def strNOOP : List Nat := [78, 79, 79, 80]

/-- One parsed command parameter.  The source stores each parameter as a
single-key object; a flag (bare token) has value true, modelled as
val = none, and KEY=VALUE has the string value, modelled as val = some. -/
structure CmdParam where
  key : List Nat
  val : Option (List Nat)
deriving DecidableEq

/-- Parameter tokenisation from parseCommandLine: the regex
([^=]*)(?:=(.+))? splits the token at the first '=' (0x3d); when there
is no '=' or nothing follows it, the WHOLE token becomes a flag key. -/
def parseParamTok (t : List Nat) : CmdParam :=
  let k := t.takeWhile (fun b => b ≠ 61)
  let r := t.dropWhile (fun b => b ≠ 61)
  match r with
  | 61 :: v => if v = [] then ⟨t, none⟩ else ⟨k, some v⟩
  | _ => ⟨t, none⟩

/-- Parameter rendering from serializeCommand: a flag (or a falsy value,
i.e. the empty string) renders as the bare key, otherwise KEY=VALUE. -/
def renderParamTok (p : CmdParam) : List Nat :=
  match p.val with
  | none => p.key
  | some v => if v = [] then p.key else p.key ++ 61 :: v

/-- Structured command value produced by parseCommandLine.  Verb-specific
fields are only assigned in the corresponding switch cases. -/
structure Command where
  verb : List Nat
  domain : Option (List Nat) := none
  returnPath : Option (List Nat) := none
  forwardPath : Option (List Nat) := none
  params : List CmdParam := []
deriving DecidableEq

/-- Error sites of the command parser and serializer, one constructor per
distinct throw message in the source. -/
inductive CmdErr
  | emptyInput
  | oversize
  | lineBreak
  | ehloMissingDomain
  | mailNoReturnPath
  | mailBadReturnPath
  | rcptNoForwardPath
  | rcptBadForwardPath
  | rcptEmptyForwardPath
  | missingVerb
  | ehloNeedsDomain
  | rcptNeedsForwardPath
  | serializeOversize
deriving DecidableEq

/-- Search for the leftmost occurrence of tag followed by at least one
byte, returning the remainder after the tag.  This mirrors exec of the
unanchored regex (e.g. FROM:(\S+)) applied to a token: tokens come from
the whitespace split and contain no whitespace, so the greedy \S+ group
captures the entire remainder after the tag. -/
def findTagArg (tag : List Nat) : List Nat → Option (List Nat)
  | [] => none
  | c :: rest =>
    if tag.isPrefixOf (c :: rest) ∧ (c :: rest).drop tag.length ≠ [] then
      some ((c :: rest).drop tag.length)
    else findTagArg tag rest

/-- Shared tail of the RCPT case: the source checks command.forwardPath
for falsiness (empty string) after optional bracket stripping. -/
def rcptFinish (verb fp : List Nat) (rest : List (List Nat)) : Except CmdErr Command :=
  if fp = [] then .error .rcptEmptyForwardPath
  else .ok { verb := verb, forwardPath := some fp, params := rest.map parseParamTok }

/-- The EHLO case of the verb switch: one further token is required and
stored as the domain. -/
def ehloArg (verb : List Nat) : List (List Nat) → Except CmdErr Command
  | [] => .error .ehloMissingDomain
  | d :: rest => .ok { verb := verb, domain := some d, params := rest.map parseParamTok }

/-- Bracket handling of the MAIL return path after the FROM: match. -/
def mailPath (verb : List Nat) : Option (List Nat) → List (List Nat) → Except CmdErr Command
  | none, _ => .error .mailBadReturnPath
  | some rp, rest =>
    if rp.head? = some 60 then
      if rp.getLast? = some 62 then
        .ok { verb := verb, returnPath := some ((rp.drop 1).dropLast),
              params := rest.map parseParamTok }
      else .error .mailBadReturnPath
    else .ok { verb := verb, returnPath := some rp, params := rest.map parseParamTok }

/-- The MAIL case of the verb switch. -/
def mailArg (verb : List Nat) : List (List Nat) → Except CmdErr Command
  | [] => .error .mailNoReturnPath
  | t :: rest => mailPath verb (findTagArg strFROM t) rest

/-- Bracket handling of the RCPT forward path after the TO: match. -/
def rcptPath (verb : List Nat) : Option (List Nat) → List (List Nat) → Except CmdErr Command
  | none, _ => .error .rcptBadForwardPath
  | some fp, rest =>
    if fp.head? = some 60 then
      if fp.getLast? = some 62 then rcptFinish verb ((fp.drop 1).dropLast) rest
      else .error .rcptBadForwardPath
    else rcptFinish verb fp rest

/-- The RCPT case of the verb switch. -/
def rcptArg (verb : List Nat) : List (List Nat) → Except CmdErr Command
  | [] => .error .rcptNoForwardPath
  | t :: rest => rcptPath verb (findTagArg strTO t) rest

/-- Verb dispatch and parameter parsing of parseCommandLine, applied to
the whitespace-split token list.  The switch matches the verb exactly
(case-sensitively); unrecognised verbs fall through to parameter
parsing with no verb-specific field. -/
def parseTokens (parts : List (List Nat)) : Except CmdErr Command :=
  if parts.headD [] = strEHLO then ehloArg (parts.headD []) (parts.drop 1)
  else if parts.headD [] = strMAIL then mailArg (parts.headD []) (parts.drop 1)
  else if parts.headD [] = strRCPT then rcptArg (parts.headD []) (parts.drop 1)
  else .ok { verb := parts.headD [], params := (parts.drop 1).map parseParamTok }

/-- The command line parser parseCommandLine: rejects empty input, trims,
enforces the length bound maxLen - 2, rejects embedded line breaks and
then dispatches on the whitespace-split tokens. -/
def parseCommandLine (maxLen : Nat) (line : List Nat) : Except CmdErr Command :=
  if line = [] then .error .emptyInput
  else if maxLen - 2 < (trimWs line).length then .error .oversize
  else if (trimWs line).any (fun b => b = 13 || b = 10) then .error .lineBreak
  else parseTokens (splitWs (trimWs line))

/-- The verb-specific part of serializeCommand: absent input serializes
to NOOP CRLF (handled by the caller); EHLO requires a truthy domain;
MAIL renders FROM:<returnPath-or-empty> unconditionally; RCPT requires a
truthy forwardPath. -/
def serializeVerbPart (c : Command) : Except CmdErr (List Nat) :=
  if c.verb = strEHLO then
    match c.domain with
    | some d => if d = [] then .error .ehloNeedsDomain else .ok (c.verb ++ 32 :: d)
    | none => .error .ehloNeedsDomain
  else if c.verb = strMAIL then
    .ok (c.verb ++ 32 :: (strFROM ++ 60 :: (c.returnPath.getD []) ++ [62]))
  else if c.verb = strRCPT then
    match c.forwardPath with
    | some fp =>
      if fp = [] then .error .rcptNeedsForwardPath
      else .ok (c.verb ++ 32 :: (strTO ++ 60 :: fp ++ [62]))
    | none => .error .rcptNeedsForwardPath
  else .ok c.verb

/-- Rendered line before trimming: the verb-specific base followed by the
parameters, each preceded by one space. -/
def renderWithParams (c : Command) (base : List Nat) : List Nat :=
  c.params.foldl (fun acc p => acc ++ 32 :: renderParamTok p) base

/-- Finishing step of serializeCommand on the verb-specific result: the
rendered line is trimmed, terminated by CRLF and bounded by maxLen. -/
def serializeFinish (maxLen : Nat) (c : Command) : Except CmdErr (List Nat) → Except CmdErr (List Nat)
  | .error e => .error e
  | .ok base =>
    if maxLen < (trimWs (renderWithParams c base) ++ [13, 10]).length then
      .error .serializeOversize
    else .ok (trimWs (renderWithParams c base) ++ [13, 10])

/-- The command serializer serializeCommand: absent input serializes to
NOOP CRLF; an empty verb is rejected; otherwise the verb-specific part
is rendered and finished. -/
def serializeCommand (maxLen : Nat) (cmd : Option Command) : Except CmdErr (List Nat) :=
  match cmd with
  | none => .ok (strNOOP ++ [13, 10])
  | some c =>
    if c.verb = [] then .error .missingVerb
    else serializeFinish maxLen c (serializeVerbPart c)

/-- Uppercasing of a single ASCII byte, for stating case-variant facts. -/
def upperByte (b : Nat) : Nat :=
  if 97 ≤ b ∧ b ≤ 122 then b - 32 else b

/-- A verb is a lowercase or mixed-case variant of a target verb when it
uppercases to the target but differs from it. -/
def lowerVariantOf (v t : List Nat) : Prop :=
  v.map upperByte = t ∧ v ≠ t

instance (v t : List Nat) : Decidable (lowerVariantOf v t) := by
  unfold lowerVariantOf
  infer_instance

/-- One parsed SMTP reply line. -/
structure ReplyLine where
  code : Nat
  isLast : Bool
  message : List Nat
deriving DecidableEq

/-- Structured reply accumulated by parseReply.  The source builds it by
assignment into an initially empty object; the fields below are always
assigned before use because the line list is checked to be nonempty. -/
structure Reply where
  code : Nat
  message : List Nat
  lines : List (List Nat)
deriving DecidableEq

/-- Error sites of the reply parser, serializer and streaming reader. -/
inductive RErr
  | emptyLine
  | lineOversize
  | framingCRLF
  | framingBare
  | invalidReplyLine
  | emptyReply
  | prematureTermination
  | unterminated
  | missingCode
  | missingLines
  | oversizeLine
  | streamOversize
  | overhead
deriving DecidableEq

/-- Decimal digit test on bytes. -/
def isDigit (b : Nat) : Bool := 48 ≤ b && b ≤ 57

/-- Adjacent CR LF pair test, mirroring the match against the two-byte
line break regex. -/
def crlfIn : List Nat → Bool
  | 13 :: 10 :: _ => true
  | _ :: rest => crlfIn rest
  | [] => false

/-- The reply line parser parseReplyLine: rejects empty and oversized
input, right-trims, rejects embedded line break bytes, then matches the
unanchored reply grammar: three digits with first digit 2-5, an optional
separator '-' (continuation) or ' ' followed by the message.  When the
byte after the code is neither separator, the optional group fails and
the line parses as a bare code with empty message and isLast true. -/
def parseReplyLine (maxLen : Nat) (input : List Nat) : Except RErr ReplyLine :=
  if input = [] then .error .emptyLine
  else if maxLen < input.length then .error .lineOversize
  else
    let l := trimRightWs input
    if crlfIn l then .error .framingCRLF
    else if l.any (fun b => b = 13 || b = 10) then .error .framingBare
    else
      match l with
      | d1 :: d2 :: d3 :: rest =>
        if (50 ≤ d1 ∧ d1 ≤ 53) ∧ isDigit d2 ∧ isDigit d3 then
          let code := (d1 - 48) * 100 + (d2 - 48) * 10 + (d3 - 48)
          match rest with
          | sep :: msg =>
            if sep = 45 then .ok ⟨code, false, msg⟩
            else if sep = 32 then .ok ⟨code, true, msg⟩
            else .ok ⟨code, true, []⟩
          | [] => .ok ⟨code, true, []⟩
        else .error .invalidReplyLine
      | _ => .error .invalidReplyLine

/-- The reduction loop of parseReply over an already-structured line
list: every line overwrites the code, the first line seeds the message
and the line list, every message is appended, and the isLast flag must
be set exactly on the final line. -/
def parseReplyGo (total : Nat) : Nat → Reply → List ReplyLine → Except RErr Reply
  | _, memo, [] => .ok memo
  | idx, memo, rl :: rest =>
    let m1 : Reply := { memo with code := rl.code }
    let m2 : Reply := if idx = 0 then { m1 with message := rl.message, lines := [] } else m1
    let m3 : Reply := { m2 with lines := m2.lines ++ [rl.message] }
    if rl.isLast ∧ idx ≠ total - 1 then .error .prematureTermination
    else if ¬rl.isLast ∧ idx = total - 1 then .error .unterminated
    else parseReplyGo total (idx + 1) m3 rest

/-- The array-input path of parseReply: a nonempty list of reply lines
is reduced as in the source. -/
def parseReply (input : List ReplyLine) : Except RErr Reply :=
  if input = [] then .error .emptyReply
  else parseReplyGo input.length 0 ⟨0, [], []⟩ input

/-- Reply object as seen by serializeReply: the code, an optional
message and an optional lines array, with JavaScript truthiness of the
absent / empty cases modelled through Option and emptiness. -/
structure JSReply where
  code : Nat
  message : Option (List Nat)
  lines : Option (List (List Nat))
deriving DecidableEq

/-- Truthiness of reply.message: present and a nonempty string. -/
def msgTruthy (r : JSReply) : Bool :=
  match r.message with
  | some (_ :: _) => true
  | _ => false

/-- Test for a present nonempty lines array (the source checks
!reply.lines || !isArray || !reply.lines.length). -/
def linesNonempty (r : JSReply) : Bool :=
  match r.lines with
  | some (_ :: _) => true
  | _ => false

/-- Assignment lines[0] = m on a JavaScript array: extends an empty
array, otherwise replaces the first element. -/
def setFirst (ls : List (List Nat)) (m : List Nat) : List (List Nat) :=
  match ls with
  | [] => [m]
  | _ :: t => m :: t

/-- Fueled worker for decimal rendering; the fuel strictly exceeds the
digit count whenever it exceeds the number. -/
def natToDecF : Nat → Nat → List Nat
  | 0, _ => []
  | f + 1, n => if n < 10 then [48 + n] else natToDecF f (n / 10) ++ [48 + n % 10]

/-- Decimal rendering of a number, as JavaScript string concatenation of
reply.code. -/
def natToDec (n : Nat) : List Nat :=
  natToDecF (n + 1) n

/-- The rendering loop of serializeReply: each line renders as the code,
a separator ('-' on all but the last line, ' ' on the last), the trimmed
line and CRLF, with a per-line length bound. -/
def renderReplyGo (maxLen code total : Nat) : Nat → List (List Nat) → Except RErr (List Nat)
  | _, [] => .ok []
  | idx, ln :: rest =>
    let cl := natToDec code ++ (if idx = total - 1 then (32 : Nat) else 45) :: (trimWs ln ++ [13, 10])
    if maxLen < cl.length then .error .oversizeLine
    else
      match renderReplyGo maxLen code total (idx + 1) rest with
      | .error e => .error e
      | .ok tl => .ok (cl ++ tl)

/-- The reply serializer serializeReply, returning both the reply object
after the call and the rendering result: the source mutates the caller's
object (creating reply.lines and overwriting lines[0] with the message)
before rendering, so the mutated object is visible even when rendering
fails. -/
def serializeReplyImpl (maxLen : Nat) (r : JSReply) : JSReply × Except RErr (List Nat) :=
  if r.code = 0 then (r, .error .missingCode)
  else if ¬linesNonempty r ∧ ¬msgTruthy r then (r, .error .missingLines)
  else
    let r1 := if msgTruthy r then
        { r with lines := some (setFirst (r.lines.getD []) (r.message.getD [])) }
      else r
    (r1, renderReplyGo maxLen r1.code (r1.lines.getD []).length 0 (r1.lines.getD []))

/-- Rendering result of serializeReply alone. -/
def serializeReply (maxLen : Nat) (r : JSReply) : Except RErr (List Nat) :=
  (serializeReplyImpl maxLen r).2

/-- View of a parseReply result as the reply object handed to
serializeReply. -/
def toJSReply (r : Reply) : JSReply :=
  ⟨r.code, some r.message, some r.lines⟩

/-- Modelled from the claim's wording of the round-trip: every message
rendered with the shared code, continuation separator '-' on all but
the last line and ' ' on the last, each line terminated by CRLF. -/
def replyWireSpec (c : Nat) : List (List Nat) → List Nat
  | [] => []
  | [m] => natToDec c ++ 32 :: (m ++ [13, 10])
  | m :: m2 :: rest => natToDec c ++ 45 :: (m ++ [13, 10]) ++ replyWireSpec c (m2 :: rest)

/-- Streaming reply parser state: the current line buffer and the
accumulated reply lines. -/
structure RPSt where
  cur : List Nat
  lines : List ReplyLine
deriving DecidableEq

/-- Terminal outcome of the promise-based streaming parse: the promise
resolves or rejects through cleanup, stays pending, or an exception is
thrown out of the data handler (leaving the promise unsettled). -/
inductive StreamRes
  | resolved (r : Reply)
  | rejected (e : RErr)
  | pending
  | thrown (e : RErr)
deriving DecidableEq

/-- The per-chunk data handler of the streaming reply parse: bytes are
copied into the line buffer with a pre-write length check; on LF the
line is parsed and collected; when the line isLast, any remaining bytes
in the same chunk hit a bare throw statement (not routed through
cleanup), otherwise the collected lines are reduced and the promise is
resolved.  The Except error carries a terminal outcome. -/
def rpData (maxLen : Nat) : RPSt → List Nat → Except StreamRes RPSt
  | st, [] => .ok st
  | st, c :: rest =>
    if maxLen ≤ st.cur.length then .error (.rejected .streamOversize)
    else
      let cur := st.cur ++ [c]
      if c = 10 then
        match parseReplyLine maxLen cur with
        | .error e => .error (.rejected e)
        | .ok rl =>
          let lines := st.lines ++ [rl]
          if rl.isLast then
            if rest ≠ [] then .error (.thrown .overhead)
            else
              match parseReply lines with
              | .ok r => .error (.resolved r)
              | .error e => .error (.rejected e)
          else rpData maxLen ⟨[], lines⟩ rest
      else rpData maxLen ⟨cur, st.lines⟩ rest

/-- Chunk loop of the streaming parse; with no terminal outcome the
promise stays pending (end-of-stream and timeout are delivered as
separate events outside these chunks). -/
def rpChunksGo (maxLen : Nat) : RPSt → List (List Nat) → StreamRes
  | _, [] => .pending
  | st, ch :: rest =>
    match rpData maxLen st ch with
    | .error r => r
    | .ok st1 => rpChunksGo maxLen st1 rest

/-- Streaming reply parse over a chunk sequence. -/
def replyParseChunks (maxLen : Nat) (chunks : List (List Nat)) : StreamRes :=
  rpChunksGo maxLen ⟨[], []⟩ chunks

/-- One step of the DotEncoder transform loop for the current byte given
the last written byte.  The source's loop first dot-stuffs at a line
start (lastChar 0x00 or LF), then converts a bare CR by writing LF and
re-running the loop body on the same byte (now from a line start), then
converts a bare LF by prepending CR; the continue branch is unrolled
here: after the inserted LF the re-run can only dot-stuff and write. -/
def encStep (last c : Nat) : List Nat × Nat :=
  if (last = 0 ∨ last = 10) ∧ c = 46 then ([46, 46], 46)
  else if c ≠ 10 ∧ last = 13 then
    (10 :: (if c = 46 then [46, 46] else [c]), if c = 46 then 46 else c)
  else if c = 10 ∧ last ≠ 13 then ([13, 10], 10)
  else ([c], c)

/-- The DotEncoder transform over one chunk: the internal staging buffer
only groups pushed bytes into blocks, so the pushed byte sequence is the
concatenation of the written bytes. -/
def encLoop (last : Nat) : List Nat → List Nat × Nat
  | [] => ([], last)
  | c :: rest =>
    let s := encStep last c
    let r := encLoop s.2 rest
    (s.1 ++ r.1, r.2)

/-- The DotEncoder flush: an LF completes a trailing bare CR, a CRLF
completes a line-less tail, and the terminating dot line is appended
unconditionally. -/
def encFlush (last : Nat) : List Nat :=
  (if last = 13 then [10] else if last ≠ 10 then [13, 10] else []) ++ [46, 13, 10]

/-- Full DotEncoder output for a byte sequence fed in one chunk. -/
def dotEncode (x : List Nat) : List Nat :=
  (encLoop 0 x).1 ++ encFlush (encLoop 0 x).2

/-- Full DotEncoder output for a chunk sequence: lastChar persists on
the instance across transform calls, and flush runs at end of input. -/
def dotEncodeChunks (chunks : List (List Nat)) : List Nat :=
  let r := chunks.foldl (fun (acc : List Nat × Nat) ch =>
    let s := encLoop acc.2 ch
    (acc.1 ++ s.1, s.2)) ([], 0)
  r.1 ++ encFlush r.2

/-- DotDecoder state: emitted output, the live region of the 1000-byte
line buffer, the byte stored at buffer index 999 (read back as the
cross-chunk lastChar seed; 0 until a write lands at offset 999), and the
termination flag set on the end-of-data line (the source sets bufferSize
to -1 and pushes null). -/
structure DecSt where
  out : List Nat
  buf : List Nat
  b999 : Nat
  term : Bool
deriving DecidableEq

/-- DotDecoder failure modes: the oversize throw in the source, and the
RangeError raised by Buffer.writeUInt8 when the write offset reaches the
1000-byte buffer length (which fires before the oversize check can). -/
inductive DecErr
  | oversize
  | range
deriving DecidableEq

/-- The DotDecoder transform inner loop: each byte is appended to the
line buffer (after the source's bufferSize > 1000 check, and failing
with a RangeError when the write offset equals the buffer length); a
CR LF pair completes a line, which is emitted with one leading dot
stripped, or terminates the stream when the line is exactly dot CR LF.
The termination branch returns immediately, dropping the rest of the
chunk. -/
def decGo (last : Nat) (st : DecSt) : List Nat → Except DecErr DecSt
  | [] => .ok st
  | c :: rest =>
    if 1000 < st.buf.length then .error .oversize
    else if st.buf.length = 1000 then .error .range
    else
      let st1 : DecSt :=
        { st with buf := st.buf ++ [c], b999 := if st.buf.length = 999 then c else st.b999 }
      if last = 13 ∧ c = 10 then
        if st1.buf.head? = some 46 then
          if st1.buf.length = 3 then .ok { st1 with buf := [], term := true }
          else decGo c { st1 with out := st1.out ++ st1.buf.drop 1, buf := [] } rest
        else decGo c { st1 with out := st1.out ++ st1.buf, buf := [] } rest
      else decGo c st1 rest

/-- One DotDecoder transform call: the per-call lastChar seed is read
from buffer index 999 (the source reads this.buffer.length - 1 of the
fixed 1000-byte buffer, not the last live byte), and a terminated
decoder processes nothing further. -/
def decChunk (st : DecSt) (ch : List Nat) : Except DecErr DecSt :=
  if st.term then .ok st else decGo st.b999 st ch

/-- DotDecoder run over a chunk sequence from a fresh instance. -/
def decChunksGo : DecSt → List (List Nat) → Except DecErr DecSt
  | st, [] => .ok st
  | st, ch :: rest =>
    match decChunk st ch with
    | .error e => .error e
    | .ok st1 => decChunksGo st1 rest

/-- Full DotDecoder outcome for a chunk sequence. -/
def dotDecodeChunks (chunks : List (List Nat)) : Except DecErr DecSt :=
  decChunksGo ⟨[], [], 0, false⟩ chunks

/-- Concatenation of CRLF-terminated lines, the shape of well-formed
message text for the round-trip statement. -/
def linesToBytes (ls : List (List Nat)) : List Nat :=
  (ls.map (fun l => l ++ [13, 10])).flatten

/-- Dot-stuffing of one line as performed by the encoder: a leading dot
is doubled. -/
def stuffLine (l : List Nat) : List Nat :=
  if l.head? = some 46 then 46 :: l else l

/-- Wire form of a sequence of lines after the encoder: stuffed lines,
then the end-of-data marker line. -/
def wireOf (ls : List (List Nat)) : List Nat :=
  (ls.map (fun l => stuffLine l ++ [13, 10])).flatten ++ [46, 13, 10]

/-- Clean line content for the round-trip: no NUL (which the encoder
treats as a line start), no LF and no CR. -/
def cleanByte (b : Nat) : Prop := b ≠ 0 ∧ b ≠ 10 ∧ b ≠ 13

/-- Session state fields relevant to end(): the ended and connected
flags. -/
structure SessState where
  ended : Bool
  connected : Bool
deriving DecidableEq

/-- Observable events of end(). -/
inductive SessEv
  | endEmitted
deriving DecidableEq

/-- The session end() method: a no-op when already ended; otherwise it
sets ended, runs the guarded close block and emits the end event.  The
returned Bool records whether client.close() was invoked.  Inside the
connected branch the source's try block first evaluates
self.state.connected = false, but no binding named self exists in that
function, so a ReferenceError is raised (the file is in strict mode),
the empty catch swallows it, and this.client.close() on the next line is
never reached; the connected flag also keeps its value. -/
def sessionEnd (st : SessState) : SessState × Bool × List SessEv :=
  if st.ended then (st, false, [])
  else
    let st1 : SessState := { st with ended := true }
    let closeCalled := if st1.connected then false else false
    (st1, closeCalled, [SessEv.endEmitted])

/-- Events of one checkpoint emission: observer invocations, their
callbacks, the proceed continuation and the abort. -/
inductive CkEv (E : Type)
  | invoke (i : Nat)
  | callback (i : Nat) (err : Option E)
  | proceed
  | abort (e : E)
deriving DecidableEq

/-- The sequential observer chain of the special emit: each observer is
shifted off the copied listener list and invoked; its callback either
aborts the session with its error, invokes the next observer, or - when
the list is exhausted - invokes the proceed continuation.  The i-th
observer's eventual callback value is rs[i].  The checkpoint timer is a
real-time mechanism outside this embedding and is assumed not to fire,
and the session is assumed not to have ended meanwhile. -/
def ckGo {E : Type} (i : Nat) : List (Option E) → List (CkEv E)
  | [] => [CkEv.proceed]
  | r :: rest =>
    CkEv.invoke i :: CkEv.callback i r ::
      (match r with
       | some e => [CkEv.abort e]
       | none => ckGo (i + 1) rest)

/-- Trace of one checkpoint emission: with no registered observers the
proceed continuation is invoked immediately. -/
def runCheckpoint {E : Type} (rs : List (Option E)) : List (CkEv E) :=
  match rs with
  | [] => [CkEv.proceed]
  | _ :: _ => ckGo 0 rs

/-- Canonical sequential prefix: observers 0..n-1 invoked in order, each
calling back without error. -/
def ckSeqTrace (E : Type) (n : Nat) : List (CkEv E) :=
  (List.range n).flatMap (fun i => [CkEv.invoke i, CkEv.callback i none])

/-- Length bound for dropWhile. -/
theorem len_dropWhile_le (p : Nat → Bool) (l : List Nat) :
    (l.dropWhile p).length ≤ l.length := by
  induction l with
  | nil => simp
  | cons a l ih =>
    by_cases h : p a
    · rw [List.dropWhile_cons_of_pos h]; exact Nat.le_succ_of_le ih
    · rw [List.dropWhile_cons_of_neg h]

/-- Length bound for the recursive argument of the whitespace split. -/
theorem wsSplit_rec_len (b : Nat) (rest : List Nat) :
    ((((b :: rest).dropWhile (fun x => !isWs x)).dropWhile isWs)).length
      < (b :: rest).length := by
  by_cases hb : isWs b
  · rw [List.dropWhile_cons_of_neg (by simp [hb]), List.dropWhile_cons_of_pos hb]
    exact Nat.lt_succ_of_le (len_dropWhile_le _ _)
  · rw [List.dropWhile_cons_of_pos (by simp [hb])]
    exact Nat.lt_succ_of_le
      (Nat.le_trans (len_dropWhile_le _ _) (len_dropWhile_le _ _))

/-- The fueled split is fuel-irrelevant above the list length. -/
theorem wsSplitF_congr : ∀ (n m : Nat) (l : List Nat), l.length ≤ n → l.length ≤ m →
    wsSplitF n l = wsSplitF m l := by
  intro n
  induction n with
  | zero =>
    intro m l hn _
    have hnil : l = [] := List.eq_nil_of_length_eq_zero (Nat.le_zero.mp hn)
    subst hnil
    cases m <;> rfl
  | succ n ih =>
    intro m l hn hm
    cases l with
    | nil => cases m <;> rfl
    | cons b rest =>
      cases m with
      | zero => simp at hm
      | succ m =>
        rw [wsSplitF, wsSplitF]
        congr 1
        have hr := wsSplit_rec_len b rest
        simp only [List.length_cons] at hr hn hm
        exact ih m _ (by omega) (by omega)

/-- Unfolding equation of the whitespace split on a nonempty list. -/
theorem wsSplit_cons_eq (b : Nat) (rest : List Nat) :
    wsSplit (b :: rest) = ((b :: rest).takeWhile (fun x => !isWs x)) ::
      wsSplit (((b :: rest).dropWhile (fun x => !isWs x)).dropWhile isWs) := by
  show wsSplitF (rest.length + 1) (b :: rest) = _
  rw [wsSplitF]
  congr 1
  apply wsSplitF_congr
  · have := wsSplit_rec_len b rest
    simp only [List.length_cons] at this
    omega
  · exact Nat.le_refl _

/-- The fueled decimal rendering is fuel-irrelevant above the number. -/
theorem natToDecF_congr : ∀ (f m n : Nat), n < f → n < m →
    natToDecF f n = natToDecF m n := by
  intro f
  induction f with
  | zero => intro m n hf _; omega
  | succ f ih =>
    intro m n hf hm
    cases m with
    | zero => omega
    | succ m =>
      rw [natToDecF, natToDecF]
      by_cases h10 : n < 10
      · rw [if_pos h10, if_pos h10]
      · rw [if_neg h10, if_neg h10]
        congr 1
        exact ih m (n / 10) (by omega) (by omega)

/-- Unfolding equation of the decimal rendering. -/
theorem natToDec_eq (n : Nat) :
    natToDec n = if n < 10 then [48 + n] else natToDec (n / 10) ++ [48 + n % 10] := by
  show natToDecF (n + 1) n = _
  rw [natToDecF]
  by_cases h10 : n < 10
  · rw [if_pos h10, if_pos h10]
  · rw [if_neg h10, if_neg h10]
    congr 1
    exact natToDecF_congr n (n / 10 + 1) (n / 10) (by omega) (by omega)

/-- Three-digit numbers render as three bytes. -/
theorem natToDec_len3 (c : Nat) (h1 : 100 ≤ c) (h2 : c ≤ 999) :
    (natToDec c).length = 3 := by
  rw [natToDec_eq, if_neg (by omega)]
  rw [natToDec_eq, if_neg (by omega)]
  rw [natToDec_eq, if_pos (by omega)]
  simp

/-- Head of a dropWhile result fails the predicate. -/
theorem head_of_dropWhile (p : Nat → Bool) (l : List Nat) (h : Nat)
    (hh : (l.dropWhile p).head? = some h) : p h = false := by
  induction l with
  | nil => simp [List.dropWhile] at hh
  | cons a l ih =>
    by_cases ha : p a
    · rw [List.dropWhile_cons_of_pos ha] at hh; exact ih hh
    · rw [List.dropWhile_cons_of_neg ha] at hh
      simp at hh
      subst hh
      simpa using ha

/-- Members of a takeWhile result satisfy the predicate. -/
theorem mem_of_takeWhile (p : Nat → Bool) (l : List Nat) (b : Nat)
    (hb : b ∈ l.takeWhile p) : p b = true := by
  induction l with
  | nil => simp [List.takeWhile] at hb
  | cons a l ih =>
    by_cases ha : p a
    · rw [List.takeWhile_cons_of_pos ha] at hb
      rcases List.mem_cons.mp hb with h | h
      · subst h; exact ha
      · exact ih h
    · rw [List.takeWhile_cons_of_neg ha] at hb; simp at hb

/-- A list whose head fails the predicate is fixed by dropWhile. -/
theorem dropWhile_eq_self_of_head (p : Nat → Bool) (l : List Nat)
    (hh : ∀ h, l.head? = some h → p h = false) : l.dropWhile p = l := by
  cases l with
  | nil => rfl
  | cons a l =>
    have := hh a rfl
    rw [List.dropWhile_cons_of_neg (by simp [this])]

/-- Trim is the identity on lists whose two ends are not whitespace. -/
theorem trimWs_eq_self (l : List Nat)
    (hh : ∀ h, l.head? = some h → isWs h = false)
    (hl : ∀ h, l.getLast? = some h → isWs h = false) : trimWs l = l := by
  unfold trimWs
  rw [dropWhile_eq_self_of_head _ _ hh]
  rw [dropWhile_eq_self_of_head _ _ (by simpa [List.head?_reverse] using hl)]
  simp

/-- Trim of a CRLF-terminated line with non-whitespace ends removes
exactly the terminator. -/
theorem trimWs_append_crlf (l : List Nat) (hne : l ≠ [])
    (hh : ∀ h, l.head? = some h → isWs h = false)
    (hl : ∀ h, l.getLast? = some h → isWs h = false) :
    trimWs (l ++ [13, 10]) = l := by
  unfold trimWs
  have h1 : (l ++ [13, 10]).dropWhile isWs = l ++ [13, 10] := by
    apply dropWhile_eq_self_of_head
    intro x hx
    cases l with
    | nil => exact absurd rfl hne
    | cons a t =>
      simp only [List.cons_append, List.head?_cons, Option.some.injEq] at hx
      subst hx
      exact hh a rfl
  rw [h1, List.reverse_append]
  show ((10 :: 13 :: l.reverse).dropWhile isWs).reverse = l
  rw [List.dropWhile_cons_of_pos (by simp [isWs]), List.dropWhile_cons_of_pos (by simp [isWs])]
  rw [dropWhile_eq_self_of_head _ _ (by simpa [List.head?_reverse] using hl)]
  simp

/-- Sequential trace of the observer chain from a given start index when
every observer calls back without error. -/
theorem ckGo_all_none {E : Type} (rs : List (Option E)) (i : Nat)
    (hrs : ∀ r ∈ rs, r = none) :
    ckGo i rs = (List.range' i rs.length).flatMap
        (fun k => [CkEv.invoke k, CkEv.callback k none]) ++ [CkEv.proceed] := by
  induction rs generalizing i with
  | nil => simp [ckGo]
  | cons r rest ih =>
    have hr : r = none := hrs r (List.mem_cons_self _ _)
    subst hr
    have hrest : ∀ x ∈ rest, x = none := fun x hx => hrs x (List.mem_cons_of_mem _ hx)
    simp [ckGo, ih (i + 1) hrest, List.range'_succ]

/-- Trace of the observer chain up to the first observer that calls back
with an error: the chain stops with an abort. -/
theorem ckGo_first_err {E : Type} (pre : List (Option E)) (i : Nat) (e : E)
    (post : List (Option E)) (hpre : ∀ r ∈ pre, r = none) :
    ckGo i (pre ++ some e :: post) = (List.range' i pre.length).flatMap
        (fun k => [CkEv.invoke k, CkEv.callback k none]) ++
      [CkEv.invoke (i + pre.length), CkEv.callback (i + pre.length) (some e), CkEv.abort e] := by
  induction pre generalizing i with
  | nil => simp [ckGo]
  | cons r rest ih =>
    have hr : r = none := hpre r (List.mem_cons_self _ _)
    subst hr
    have hrest : ∀ x ∈ rest, x = none := fun x hx => hpre x (List.mem_cons_of_mem _ hx)
    have hlen : i + (rest.length + 1) = i + 1 + rest.length := by omega
    simp [ckGo, ih (i + 1) hrest, List.range'_succ, hlen]

/-- Claim C2: at a connect, command or reply checkpoint the registered
observers are invoked strictly sequentially in registration order, each
only after the previous callback; with no observers proceed fires
immediately; if every observer calls back without error, proceed fires
exactly once after all of them; if an observer calls back with an error
the session aborts and proceed never fires.  The checkpoint timer is a
real-time mechanism outside this embedding (assumed not to fire) and the
session is assumed live. -/
theorem c2_checkpoint_protocol {E : Type} (rs : List (Option E)) :
    (rs = [] → runCheckpoint rs = [CkEv.proceed]) ∧
    ((∀ r ∈ rs, r = none) →
      runCheckpoint rs = ckSeqTrace E rs.length ++ [CkEv.proceed]) ∧
    (∀ pre e post, rs = pre ++ some e :: post → (∀ r ∈ pre, r = none) →
      runCheckpoint rs = ckSeqTrace E pre.length ++
        [CkEv.invoke pre.length, CkEv.callback pre.length (some e), CkEv.abort e] ∧
      CkEv.proceed ∉ runCheckpoint rs) := by
  refine ⟨fun h => by subst h; rfl, fun hall => ?_, fun pre e post hsplit hpre => ?_⟩
  · cases rs with
    | nil => simp [runCheckpoint, ckSeqTrace]
    | cons r rest =>
      show ckGo 0 (r :: rest) = _
      rw [ckGo_all_none _ 0 hall]
      simp [ckSeqTrace, List.range_eq_range']
  · subst hsplit
    have heq : runCheckpoint (pre ++ some e :: post) = ckGo 0 (pre ++ some e :: post) := by
      cases pre <;> rfl
    rw [heq, ckGo_first_err _ 0 _ _ hpre]
    refine ⟨by simp [ckSeqTrace, List.range_eq_range'], ?_⟩
    intro hmem
    rcases List.mem_append.mp hmem with h | h
    · rcases List.mem_flatMap.mp h with ⟨k, _, hk⟩
      simp at hk
    · simp at h

/-- Claim C2 witness: three observers where the third vetoes. -/
theorem c2_checkpoint_protocol_witness :
    runCheckpoint [none, none, some 5] =
      [CkEv.invoke 0, CkEv.callback 0 none, CkEv.invoke 1, CkEv.callback 1 none,
       CkEv.invoke 2, CkEv.callback 2 (some (5 : Nat)), CkEv.abort 5] ∧
    CkEv.proceed ∉ runCheckpoint [none, none, some 5] := by
  have h := (c2_checkpoint_protocol [none, none, some (5 : Nat)]).2.2
    [none, none] 5 [] rfl (by decide)
  refine ⟨(h.1).trans (by decide), h.2⟩

/-- Claim C3: evaluation of end() at a live connected session.  The
claim states that end() closes the transport whenever state.connected is
true; the code marks the session ended and emits the end event, but the
close flag is false: the try block dereferences the undefined name self,
the resulting ReferenceError is swallowed by the empty catch, and
client.close() is never invoked (the connected flag also stays true). -/
theorem c3_end_eval :
    sessionEnd ⟨false, true⟩ = (⟨true, true⟩, false, [SessEv.endEmitted]) ∧
    sessionEnd ⟨true, true⟩ = (⟨true, true⟩, false, []) := by
  exact ⟨rfl, rfl⟩

/-- Claim C4: evaluation of the streaming reply parse on a chunk that
carries one extra byte after the CRLF of a terminal reply line.  The
claim states the parse promise is rejected with the trailing-overhead
error; the code instead executes a bare throw inside the data handler,
so the outcome is a thrown exception and the promise is never settled
by this path. -/
theorem c4_overhead_eval :
    replyParseChunks 512 [[50, 53, 48, 32, 79, 75, 13, 10, 88]] = .thrown .overhead ∧
    ∀ e, replyParseChunks 512 [[50, 53, 48, 32, 79, 75, 13, 10, 88]] ≠ .rejected e := by
  constructor
  · rfl
  · intro e h
    rw [show replyParseChunks 512 [[50, 53, 48, 32, 79, 75, 13, 10, 88]] = .thrown .overhead
      from rfl] at h
    exact StreamRes.noConfusion h

set_option maxRecDepth 40000 in
/-- Claim C8: evaluation of the DotDecoder on a 1001-byte line with no
terminator.  The claim states the decoder fails with the oversize
error; the code instead attempts a buffer write at offset 1000 of the
1000-byte line buffer, raising a RangeError before its own oversize
check (bufferSize > maxLineLength) can ever fire. -/
theorem c8_decoder_oversize_eval :
    dotDecodeChunks [List.replicate 1001 97] = .error .range ∧
    dotDecodeChunks [List.replicate 1001 97] ≠ .error .oversize := by
  refine ⟨by decide, by decide⟩

/-- Claim C9: serializeReply mutates the reply object passed by the
caller whenever reply.message is set (truthy): it creates reply.lines
when absent and assigns the message into lines[0] in place, so the
caller's object afterwards carries the message as its first line. -/
theorem c9_serialize_reply_mutates (r : JSReply) (m : List Nat)
    (hc : r.code ≠ 0) (hm : r.message = some m) (hne : m ≠ []) :
    (serializeReplyImpl 512 r).1 = { r with lines := some (setFirst (r.lines.getD []) m) } := by
  have hmt : msgTruthy r = true := by
    cases m with
    | nil => exact absurd rfl hne
    | cons a t => simp [msgTruthy, hm]
  unfold serializeReplyImpl
  rw [if_neg hc]
  have hsecond : ¬(¬linesNonempty r ∧ ¬msgTruthy r) := by
    intro h
    exact h.2 (by simp [hmt])
  rw [if_neg hsecond]
  simp [hmt, hm]

/-- Claim C9 witness: a reply with message set and two lines has its
first line replaced in place. -/
theorem c9_serialize_reply_mutates_witness :
    (serializeReplyImpl 512 ⟨250, some [109], some [[97], [98]]⟩).1 =
      ⟨250, some [109], some [[109], [98]]⟩ := by
  exact (c9_serialize_reply_mutates ⟨250, some [109], some [[97], [98]]⟩ [109]
    (by decide) rfl (by decide)).trans (by decide)

/-- A list all of whose members satisfy the predicate drops to nil. -/
theorem dropWhile_eq_nil_of_all (p : Nat → Bool) (l : List Nat)
    (h : ∀ b ∈ l, p b = true) : l.dropWhile p = [] := by
  induction l with
  | nil => rfl
  | cons a t ih =>
    rw [List.dropWhile_cons_of_pos (h a (List.mem_cons_self _ _))]
    exact ih (fun b hb => h b (List.mem_cons_of_mem _ hb))

/-- Tokens produced by the whitespace split from a list with a non-ws
head are nonempty and free of whitespace. -/
theorem wsSplit_tokens_aux : ∀ (n : Nat) (l : List Nat), l.length ≤ n →
    (∀ h, l.head? = some h → isWs h = false) →
    ∀ t ∈ wsSplit l, t ≠ [] ∧ ∀ b ∈ t, isWs b = false := by
  intro n
  induction n with
  | zero =>
    intro l hl _ t ht
    have hnil : l = [] := List.eq_nil_of_length_eq_zero (Nat.le_zero.mp hl)
    subst hnil
    simp [wsSplit, wsSplitF] at ht
  | succ n ih =>
    intro l hlen hh t ht
    cases l with
    | nil => simp [wsSplit, wsSplitF] at ht
    | cons b rest =>
      rw [wsSplit_cons_eq] at ht
      rcases List.mem_cons.mp ht with h | h
      · subst h
        have hb : isWs b = false := hh b rfl
        refine ⟨?_, ?_⟩
        · rw [List.takeWhile_cons_of_pos (by simp [hb])]
          simp
        · intro x hx
          simpa using mem_of_takeWhile _ _ _ hx
      · refine ih _ ?_ ?_ t h
        · have hrl := wsSplit_rec_len b rest
          simp only [List.length_cons] at hrl hlen ⊢
          omega
        · intro x hx
          exact head_of_dropWhile isWs _ _ hx

/-- Wrapper at the natural length. -/
theorem wsSplit_tokens (l : List Nat)
    (hh : ∀ h, l.head? = some h → isWs h = false) :
    ∀ t ∈ wsSplit l, t ≠ [] ∧ ∀ b ∈ t, isWs b = false :=
  wsSplit_tokens_aux l.length l (Nat.le_refl _) hh

/-- Splitting a single whitespace-free nonempty token. -/
theorem wsSplit_single (t : List Nat) (hne : t ≠ [])
    (hcl : ∀ b ∈ t, isWs b = false) : wsSplit t = [t] := by
  cases t with
  | nil => exact absurd rfl hne
  | cons b rest =>
    rw [wsSplit_cons_eq]
    have htake : (b :: rest).takeWhile (fun x => !isWs x) = b :: rest := by
      rw [List.takeWhile_eq_self_iff]
      intro x hx
      simp [hcl x hx]
    have hdrop : (b :: rest).dropWhile (fun x => !isWs x) = [] :=
      dropWhile_eq_nil_of_all _ _ (fun x hx => by simp [hcl x hx])
    rw [htake, hdrop]
    simp [wsSplit, wsSplitF]

/-- Splitting a token, a space and a remainder with non-ws head. -/
theorem wsSplit_cons_tok (t m : List Nat) (hne : t ≠ [])
    (hcl : ∀ b ∈ t, isWs b = false)
    (hm : ∀ h, m.head? = some h → isWs h = false) :
    wsSplit (t ++ 32 :: m) = t :: wsSplit m := by
  cases t with
  | nil => exact absurd rfl hne
  | cons b rest =>
    rw [List.cons_append, wsSplit_cons_eq]
    have htake : ((b :: rest) ++ 32 :: m).takeWhile (fun x => !isWs x) = b :: rest := by
      rw [List.takeWhile_append_of_pos (by intro a ha; simp [hcl a ha])]
      rw [List.takeWhile_cons_of_neg (by simp [isWs])]
      simp
    have hdrop : ((b :: rest) ++ 32 :: m).dropWhile (fun x => !isWs x) = 32 :: m := by
      rw [List.dropWhile_append_of_pos (by intro a ha; simp [hcl a ha])]
      rw [List.dropWhile_cons_of_neg (by simp [isWs])]
    rw [show (b :: rest) ++ 32 :: m = b :: (rest ++ 32 :: m) from rfl] at htake hdrop
    rw [htake, hdrop, List.dropWhile_cons_of_pos (by simp [isWs]),
      dropWhile_eq_self_of_head _ _ hm]

/-- Decomposition of a nonempty join. -/
theorem joinSp_cons_decomp (t : List Nat) (ts : List (List Nat)) :
    ∃ r, joinSp (t :: ts) = t ++ r := by
  cases ts with
  | nil => exact ⟨[], by simp [joinSp]⟩
  | cons t2 ts2 => exact ⟨32 :: joinSp (t2 :: ts2), rfl⟩

/-- Head of a join of tokens with a nonempty first token. -/
theorem joinSp_head? (t : List Nat) (ts : List (List Nat)) (hne : t ≠ []) :
    (joinSp (t :: ts)).head? = t.head? := by
  obtain ⟨r, hr⟩ := joinSp_cons_decomp t ts
  rw [hr]
  cases t with
  | nil => exact absurd rfl hne
  | cons a t2 => rfl

/-- The join of nonempty tokens is nonempty. -/
theorem joinSp_ne_nil (t : List Nat) (ts : List (List Nat)) (hne : t ≠ []) :
    joinSp (t :: ts) ≠ [] := by
  obtain ⟨r, hr⟩ := joinSp_cons_decomp t ts
  rw [hr]
  cases t with
  | nil => exact absurd rfl hne
  | cons a t2 => simp

/-- Splitting inverts joining for nonempty whitespace-free tokens. -/
theorem wsSplit_joinSp : ∀ (toks : List (List Nat)), toks ≠ [] →
    (∀ t ∈ toks, t ≠ [] ∧ ∀ b ∈ t, isWs b = false) →
    wsSplit (joinSp toks) = toks := by
  intro toks
  induction toks with
  | nil => intro h; exact absurd rfl h
  | cons t ts ih =>
    intro _ hall
    obtain ⟨hne, hcl⟩ := hall t (List.mem_cons_self _ _)
    cases ts with
    | nil => simpa [joinSp] using wsSplit_single t hne hcl
    | cons t2 ts2 =>
      have hall2 : ∀ x ∈ t2 :: ts2, x ≠ [] ∧ ∀ b ∈ x, isWs b = false :=
        fun x hx => hall x (List.mem_cons_of_mem _ hx)
      have ht2 := hall2 t2 (List.mem_cons_self _ _)
      rw [show joinSp (t :: t2 :: ts2) = t ++ 32 :: joinSp (t2 :: ts2) from rfl]
      rw [wsSplit_cons_tok t _ hne hcl (by
        rw [joinSp_head? t2 ts2 ht2.1]
        intro h hh
        cases t2 with
        | nil => exact absurd rfl ht2.1
        | cons a r =>
          simp at hh
          subst hh
          exact ht2.2 a (List.mem_cons_self _ _))]
      rw [ih (by simp) hall2]

/-- Members of a join are spaces or members of the tokens. -/
theorem mem_joinSp : ∀ (toks : List (List Nat)) (b : Nat), b ∈ joinSp toks →
    b = 32 ∨ ∃ t ∈ toks, b ∈ t := by
  intro toks
  induction toks with
  | nil => intro b hb; simp [joinSp] at hb
  | cons t ts ih =>
    intro b hb
    cases ts with
    | nil => exact Or.inr ⟨t, List.mem_cons_self _ _, by simpa [joinSp] using hb⟩
    | cons t2 ts2 =>
      rw [show joinSp (t :: t2 :: ts2) = t ++ 32 :: joinSp (t2 :: ts2) from rfl] at hb
      rcases List.mem_append.mp hb with h | h
      · exact Or.inr ⟨t, List.mem_cons_self _ _, h⟩
      · rcases List.mem_cons.mp h with h2 | h2
        · exact Or.inl h2
        · rcases ih b h2 with h3 | ⟨x, hx, hbx⟩
          · exact Or.inl h3
          · exact Or.inr ⟨x, List.mem_cons_of_mem _ hx, hbx⟩

/-- Last element of a join of nonempty tokens is the last element of the
last token. -/
theorem joinSp_getLast? : ∀ (toks : List (List Nat)) (tlast : List Nat),
    toks.getLast? = some tlast → (∀ t ∈ toks, t ≠ []) →
    (joinSp toks).getLast? = tlast.getLast? := by
  intro toks
  induction toks with
  | nil => intro tlast h; simp at h
  | cons t ts ih =>
    intro tlast hlast hall
    cases ts with
    | nil =>
      simp at hlast
      subst hlast
      rfl
    | cons t2 ts2 =>
      rw [List.getLast?_cons_cons] at hlast
      rw [show joinSp (t :: t2 :: ts2) = t ++ 32 :: joinSp (t2 :: ts2) from rfl]
      have hj2 : joinSp (t2 :: ts2) ≠ [] :=
        joinSp_ne_nil t2 ts2 (hall t2 (List.mem_cons_of_mem _ (List.mem_cons_self _ _)))
      rw [List.getLast?_append_of_ne_nil _ (by simp)]
      rw [show (32 :: joinSp (t2 :: ts2)) = [32] ++ joinSp (t2 :: ts2) from rfl]
      rw [List.getLast?_append_of_ne_nil _ hj2]
      exact ih tlast hlast (fun x hx => hall x (List.mem_cons_of_mem _ hx))

/-- The tag search succeeds immediately on a token that starts with the
tag and continues nonempty. -/
theorem findTagArg_self (tag r : List Nat) (htag : tag ≠ []) (hr : r ≠ []) :
    findTagArg tag (tag ++ r) = some r := by
  have hpre : ∀ (l m : List Nat), l.isPrefixOf (l ++ m) = true := by
    intro l
    induction l with
    | nil => intro m; simp [List.isPrefixOf]
    | cons a t ih => intro m; simp [List.isPrefixOf, ih m]
  cases tag with
  | nil => exact absurd rfl htag
  | cons c tag2 =>
    rw [List.cons_append, findTagArg]
    rw [show c :: (tag2 ++ r) = (c :: tag2) ++ r from rfl]
    rw [if_pos ⟨hpre _ _, by simpa [List.drop_left] using hr⟩]
    simp [List.drop_left]

/-- A list with a getLast? value contains it. -/
theorem getLast?_some_mem {α : Type} : ∀ (l : List α) (a : α), l.getLast? = some a → a ∈ l := by
  intro l
  induction l with
  | nil => intro a h; simp at h
  | cons x r ih =>
    intro a h
    cases r with
    | nil =>
      simp at h
      subst h
      exact List.mem_cons_self _ _
    | cons y r2 =>
      rw [List.getLast?_cons_cons] at h
      exact List.mem_cons_of_mem _ (ih a h)

/-- A nonempty list has a getLast? value. -/
theorem getLast?_exists {α : Type} : ∀ (l : List α), l ≠ [] → ∃ a, l.getLast? = some a := by
  intro l
  induction l with
  | nil => intro h; exact absurd rfl h
  | cons x r ih =>
    intro _
    cases r with
    | nil => exact ⟨x, rfl⟩
    | cons y r2 =>
      obtain ⟨a, ha⟩ := ih (by simp)
      exact ⟨a, by rw [List.getLast?_cons_cons]; exact ha⟩

/-- Non-whitespace bytes are none of the whitespace codes. -/
theorem not_ws_ne (b : Nat) (h : isWs b = false) :
    b ≠ 9 ∧ b ≠ 10 ∧ b ≠ 11 ∧ b ≠ 12 ∧ b ≠ 13 ∧ b ≠ 32 := by
  simp [isWs] at h
  refine ⟨?_, ?_, ?_, ?_, ?_, ?_⟩ <;> omega

/-- Evaluation of parseCommandLine on a line whose trim is a join of
nonempty whitespace-free tokens within the length bound: the checks
pass and the dispatch runs on exactly those tokens. -/
theorem parseCommandLine_eval (maxLen : Nat) (line : List Nat) (toks : List (List Nat))
    (hne : line ≠ []) (htrim : trimWs line = joinSp toks) (htoksne : toks ≠ [])
    (hall : ∀ t ∈ toks, t ≠ [] ∧ ∀ b ∈ t, isWs b = false)
    (hlen : (joinSp toks).length ≤ maxLen - 2) :
    parseCommandLine maxLen line = parseTokens toks := by
  obtain ⟨t0, ts, rfl⟩ : ∃ t0 ts, toks = t0 :: ts := by
    cases toks with
    | nil => exact absurd rfl htoksne
    | cons a b => exact ⟨a, b, rfl⟩
  have ht0 := hall t0 (List.mem_cons_self _ _)
  have hjne : joinSp (t0 :: ts) ≠ [] := joinSp_ne_nil t0 ts ht0.1
  have hbrk : (joinSp (t0 :: ts)).any (fun b => b = 13 || b = 10) = false := by
    rw [List.any_eq_false]
    intro b hb
    rcases mem_joinSp _ b hb with h32 | ⟨t, ht, hbt⟩
    · subst h32; decide
    · have hcl := (hall t ht).2 b hbt
      have := not_ws_ne b hcl
      simp [this.2.1, this.2.2.2.2.1]
  unfold parseCommandLine
  rw [if_neg hne, htrim, if_neg (by omega), if_neg (by simp [hbrk])]
  unfold splitWs
  rw [if_neg hjne, wsSplit_joinSp _ htoksne hall]

/-- Identity of trim on a join of nonempty whitespace-free tokens. -/
theorem trimWs_joinSp (toks : List (List Nat)) (htoksne : toks ≠ [])
    (hall : ∀ t ∈ toks, t ≠ [] ∧ ∀ b ∈ t, isWs b = false) :
    trimWs (joinSp toks) = joinSp toks := by
  obtain ⟨t0, ts, rfl⟩ : ∃ t0 ts, toks = t0 :: ts := by
    cases toks with
    | nil => exact absurd rfl htoksne
    | cons a b => exact ⟨a, b, rfl⟩
  have ht0 := hall t0 (List.mem_cons_self _ _)
  apply trimWs_eq_self
  · intro h hh
    rw [joinSp_head? t0 ts ht0.1] at hh
    apply ht0.2
    cases t0 with
    | nil => exact absurd rfl ht0.1
    | cons a r =>
      simp at hh
      subst hh
      exact List.mem_cons_self _ _
  · intro h hh
    obtain ⟨tl, htl⟩ := getLast?_exists (t0 :: ts) (by simp)
    have htlmem := getLast?_some_mem _ _ htl
    rw [joinSp_getLast? _ tl htl (fun x hx => (hall x hx).1)] at hh
    exact (hall tl htlmem).2 h (getLast?_some_mem _ _ hh)

/-- Trim of a CRLF-terminated join of nonempty whitespace-free tokens. -/
theorem trimWs_joinSp_crlf (toks : List (List Nat)) (htoksne : toks ≠ [])
    (hall : ∀ t ∈ toks, t ≠ [] ∧ ∀ b ∈ t, isWs b = false) :
    trimWs (joinSp toks ++ [13, 10]) = joinSp toks := by
  obtain ⟨t0, ts, rfl⟩ : ∃ t0 ts, toks = t0 :: ts := by
    cases toks with
    | nil => exact absurd rfl htoksne
    | cons a b => exact ⟨a, b, rfl⟩
  have ht0 := hall t0 (List.mem_cons_self _ _)
  apply trimWs_append_crlf _ (joinSp_ne_nil t0 ts ht0.1)
  · intro h hh
    rw [joinSp_head? t0 ts ht0.1] at hh
    apply ht0.2
    cases t0 with
    | nil => exact absurd rfl ht0.1
    | cons a r =>
      simp at hh
      subst hh
      exact List.mem_cons_self _ _
  · intro h hh
    obtain ⟨tl, htl⟩ := getLast?_exists (t0 :: ts) (by simp)
    have htlmem := getLast?_some_mem _ _ htl
    rw [joinSp_getLast? _ tl htl (fun x hx => (hall x hx).1)] at hh
    exact (hall tl htlmem).2 h (getLast?_some_mem _ _ hh)

/-- A lowercase or mixed-case variant of one of the three dispatch verbs
differs from all three (the targets are fixed by uppercasing). -/
theorem lowerVariant_ne_all (v : List Nat)
    (hv : lowerVariantOf v strEHLO ∨ lowerVariantOf v strMAIL ∨ lowerVariantOf v strRCPT) :
    v ≠ strEHLO ∧ v ≠ strMAIL ∧ v ≠ strRCPT := by
  rcases hv with h | h | h <;>
    refine ⟨?_, ?_, ?_⟩ <;>
    first
      | exact h.2
      | (intro he; have hm := h.1; rw [he] at hm; revert hm; decide)

/-- Claim C10: verb dispatch in parseCommandLine is case-sensitive: for
every command line (passing the generic checks) whose first token is a
lowercase or mixed-case variant of EHLO, MAIL or RCPT, the parse
succeeds without verb-specific validation or extraction: the result has
no domain, returnPath or forwardPath, and all remaining tokens
(including any FROM:/TO: token) are returned as ordinary params. -/
theorem c10_case_sensitive_dispatch (line : List Nat)
    (hne : line ≠ [])
    (hlen : (trimWs line).length ≤ 510)
    (hbrk : (trimWs line).any (fun b => b = 13 || b = 10) = false)
    (hv : lowerVariantOf ((splitWs (trimWs line)).headD []) strEHLO ∨
          lowerVariantOf ((splitWs (trimWs line)).headD []) strMAIL ∨
          lowerVariantOf ((splitWs (trimWs line)).headD []) strRCPT) :
    parseCommandLine 512 line =
      .ok { verb := (splitWs (trimWs line)).headD [],
            params := ((splitWs (trimWs line)).drop 1).map parseParamTok } := by
  obtain ⟨h1, h2, h3⟩ := lowerVariant_ne_all _ hv
  unfold parseCommandLine
  rw [if_neg hne, if_neg (by omega), if_neg (by simp [hbrk])]
  unfold parseTokens
  rw [if_neg h1, if_neg h2, if_neg h3]

/-- Claim C10 witness: the line mail FROM:<a@b> parses with the
lowercase verb kept, no returnPath, and the FROM: token as a flag
parameter. -/
theorem c10_case_sensitive_dispatch_witness :
    parseCommandLine 512 [109, 97, 105, 108, 32, 70, 82, 79, 77, 58, 60, 97, 64, 98, 62] =
      .ok { verb := [109, 97, 105, 108],
            params := [⟨[70, 82, 79, 77, 58, 60, 97, 64, 98, 62], none⟩] } := by
  have h := c10_case_sensitive_dispatch
    [109, 97, 105, 108, 32, 70, 82, 79, 77, 58, 60, 97, 64, 98, 62]
    (by decide) (by decide) (by decide) (Or.inr (Or.inl (by decide)))
  exact h.trans (by decide)

/-- Claim C6: parseCommandLine accepts MAIL with an empty return path
(FROM:<> yields returnPath equal to the empty string and no error),
rejects RCPT with an empty forward path (TO:<>), and for both verbs a
path that opens with the angle bracket but does not close it fails with
the missing-argument error. -/
theorem c6_mail_rcpt_path_validation :
    parseCommandLine 512 (strMAIL ++ 32 :: (strFROM ++ [60, 62])) =
      .ok { verb := strMAIL, returnPath := some [] } ∧
    parseCommandLine 512 (strRCPT ++ 32 :: (strTO ++ [60, 62])) =
      .error .rcptEmptyForwardPath ∧
    (∀ p : List Nat, p.length ≤ 499 → (∀ b ∈ p, isWs b = false) → p.getLast? ≠ some 62 →
      parseCommandLine 512 (strMAIL ++ 32 :: (strFROM ++ 60 :: p)) =
        .error .mailBadReturnPath) ∧
    (∀ p : List Nat, p.length ≤ 499 → (∀ b ∈ p, isWs b = false) → p.getLast? ≠ some 62 →
      parseCommandLine 512 (strRCPT ++ 32 :: (strTO ++ 60 :: p)) =
        .error .rcptBadForwardPath) := by
  refine ⟨by decide, by decide, ?_, ?_⟩
  · intro p hplen hpcl hplast
    have hargcl : ∀ b ∈ strFROM ++ 60 :: p, isWs b = false := by
      intro b hb
      rcases List.mem_append.mp hb with h | h
      · simp [strFROM] at h
        rcases h with rfl | rfl | rfl | rfl | rfl <;> decide
      · rcases List.mem_cons.mp h with rfl | h2
        · decide
        · exact hpcl b h2
    have hall : ∀ t ∈ [strMAIL, strFROM ++ 60 :: p],
        t ≠ [] ∧ ∀ b ∈ t, isWs b = false := by
      intro t ht
      simp only [List.mem_cons, List.mem_singleton] at ht
      rcases ht with rfl | rfl | h
      · exact ⟨by decide, by decide⟩
      · exact ⟨by simp [strFROM], hargcl⟩
      · simp at h
    have hlen : (joinSp [strMAIL, strFROM ++ 60 :: p]).length ≤ 510 := by
      show (strMAIL ++ 32 :: (strFROM ++ 60 :: p)).length ≤ 510
      simp [strMAIL, strFROM]
      omega
    rw [show strMAIL ++ 32 :: (strFROM ++ 60 :: p) =
      joinSp [strMAIL, strFROM ++ 60 :: p] from rfl]
    rw [parseCommandLine_eval 512 _ [strMAIL, strFROM ++ 60 :: p]
      (joinSp_ne_nil _ _ (by decide)) (trimWs_joinSp _ (by simp) hall) (by simp) hall hlen]
    unfold parseTokens
    rw [if_neg (by rw [List.headD_cons]; decide), if_pos (by rw [List.headD_cons])]
    simp only [List.drop_succ_cons, List.drop_zero, mailArg]
    rw [findTagArg_self strFROM (60 :: p) (by decide) (by simp)]
    simp only [mailPath]
    rw [if_pos (show (60 :: p).head? = some 60 from rfl)]
    cases p with
    | nil => rw [if_neg (by decide)]
    | cons a p2 =>
      rw [List.getLast?_cons_cons, if_neg hplast]
  · intro p hplen hpcl hplast
    have hargcl : ∀ b ∈ strTO ++ 60 :: p, isWs b = false := by
      intro b hb
      rcases List.mem_append.mp hb with h | h
      · simp [strTO] at h
        rcases h with rfl | rfl | rfl <;> decide
      · rcases List.mem_cons.mp h with rfl | h2
        · decide
        · exact hpcl b h2
    have hall : ∀ t ∈ [strRCPT, strTO ++ 60 :: p],
        t ≠ [] ∧ ∀ b ∈ t, isWs b = false := by
      intro t ht
      simp only [List.mem_cons, List.mem_singleton] at ht
      rcases ht with rfl | rfl | h
      · exact ⟨by decide, by decide⟩
      · exact ⟨by simp [strTO], hargcl⟩
      · simp at h
    have hlen : (joinSp [strRCPT, strTO ++ 60 :: p]).length ≤ 510 := by
      show (strRCPT ++ 32 :: (strTO ++ 60 :: p)).length ≤ 510
      simp [strRCPT, strTO]
      omega
    rw [show strRCPT ++ 32 :: (strTO ++ 60 :: p) =
      joinSp [strRCPT, strTO ++ 60 :: p] from rfl]
    rw [parseCommandLine_eval 512 _ [strRCPT, strTO ++ 60 :: p]
      (joinSp_ne_nil _ _ (by decide)) (trimWs_joinSp _ (by simp) hall) (by simp) hall hlen]
    unfold parseTokens
    rw [if_neg (by rw [List.headD_cons]; decide), if_neg (by rw [List.headD_cons]; decide),
      if_pos (by rw [List.headD_cons])]
    simp only [List.drop_succ_cons, List.drop_zero, rcptArg]
    rw [findTagArg_self strTO (60 :: p) (by decide) (by simp)]
    simp only [rcptPath]
    rw [if_pos (show (60 :: p).head? = some 60 from rfl)]
    cases p with
    | nil => rw [if_neg (by decide)]
    | cons a p2 =>
      rw [List.getLast?_cons_cons, if_neg hplast]

/-- Claim C6 witness: an unclosed bracket after FROM: is rejected. -/
theorem c6_mail_rcpt_path_validation_witness :
    parseCommandLine 512 (strMAIL ++ 32 :: (strFROM ++ 60 :: [97])) =
      .error .mailBadReturnPath :=
  c6_mail_rcpt_path_validation.2.2.1 [97] (by decide) (by decide) (by decide)

/-- One accepted step of the parseReply reduction: when neither check
fires, the line's code and message are folded into the accumulator (the
first position also seeds message and lines). -/
theorem parseReplyGo_step (total idx : Nat) (memo : Reply) (rl : ReplyLine)
    (rest : List ReplyLine)
    (hchk1 : ¬(rl.isLast = true ∧ idx ≠ total - 1))
    (hchk2 : ¬(¬(rl.isLast = true) ∧ idx = total - 1)) :
    parseReplyGo total idx memo (rl :: rest) =
      parseReplyGo total (idx + 1)
        (if idx = 0 then ⟨rl.code, rl.message, [rl.message]⟩
         else ⟨rl.code, memo.message, memo.lines ++ [rl.message]⟩) rest := by
  simp only [parseReplyGo]
  rw [if_neg hchk1, if_neg hchk2]
  by_cases h0 : idx = 0
  · simp [h0]
  · simp [h0]

/-- Reduction of the parseReply loop over the tail of a consistent reply
(positions at least 1): every body line passes the checks, the last line
terminates, messages accumulate in order and the code field ends as the
last line's code. -/
theorem parseReplyGo_spec (body2 : List ReplyLine) (lastL : ReplyLine) :
    ∀ (k : Nat) (memo : Reply), (∀ rl ∈ body2, rl.isLast = false) → lastL.isLast = true →
    1 ≤ k →
    parseReplyGo (k + (body2 ++ [lastL]).length) k memo (body2 ++ [lastL]) =
      .ok { code := lastL.code, message := memo.message,
            lines := memo.lines ++ (body2 ++ [lastL]).map (fun rl => rl.message) } := by
  induction body2 with
  | nil =>
    intro k memo _ hlast hk
    show parseReplyGo (k + 1) k memo [lastL] = _
    rw [parseReplyGo_step (k + 1) k memo lastL []
      (fun hcon => hcon.2 (by omega)) (fun hcon => hcon.1 hlast)]
    rw [if_neg (by omega)]
    simp [parseReplyGo]
  | cons rl body2 ih =>
    intro k memo hbody hlast hk
    have hb : rl.isLast = false := hbody rl (List.mem_cons_self _ _)
    show parseReplyGo (k + (rl :: (body2 ++ [lastL])).length) k memo
      (rl :: (body2 ++ [lastL])) = _
    rw [parseReplyGo_step _ k memo rl _
      (fun hcon => by rw [hb] at hcon; exact absurd hcon.1 (by simp))
      (fun hcon => by
        have h2 := hcon.2
        simp only [List.length_cons, List.length_append, List.length_singleton] at h2
        omega)]
    rw [if_neg (by omega)]
    have htot : k + (rl :: (body2 ++ [lastL])).length = (k + 1) + (body2 ++ [lastL]).length := by
      simp only [List.length_cons, List.length_append, List.length_singleton]
      omega
    rw [htot, ih (k + 1) _ (fun x hx => hbody x (List.mem_cons_of_mem _ hx)) hlast (by omega)]
    simp

/-- Reduction of parseReply on a consistent reply: the reduce succeeds
with the shared structure (code of the last line, message of the first,
all messages in order). -/
theorem parseReply_spec (body : List ReplyLine) (lastL : ReplyLine)
    (hbody : ∀ rl ∈ body, rl.isLast = false) (hlast : lastL.isLast = true) :
    parseReply (body ++ [lastL]) =
      .ok { code := lastL.code,
            message := ((body ++ [lastL]).map (fun rl => rl.message)).headD [],
            lines := (body ++ [lastL]).map (fun rl => rl.message) } := by
  unfold parseReply
  rw [if_neg (by simp)]
  cases body with
  | nil =>
    show parseReplyGo 1 0 ⟨0, [], []⟩ [lastL] = _
    rw [parseReplyGo_step 1 0 _ lastL []
      (fun hcon => hcon.2 (by omega)) (fun hcon => hcon.1 hlast)]
    rw [if_pos rfl]
    simp [parseReplyGo]
  | cons b0 body2 =>
    show parseReplyGo ((b0 :: (body2 ++ [lastL])).length) 0 ⟨0, [], []⟩
      (b0 :: (body2 ++ [lastL])) = _
    have hb : b0.isLast = false := hbody b0 (List.mem_cons_self _ _)
    rw [parseReplyGo_step _ 0 _ b0 _
      (fun hcon => by rw [hb] at hcon; exact absurd hcon.1 (by simp))
      (fun hcon => by
        have h2 := hcon.2
        simp only [List.length_cons, List.length_append, List.length_singleton] at h2
        omega)]
    rw [if_pos rfl]
    have htot : (b0 :: (body2 ++ [lastL])).length = 1 + (body2 ++ [lastL]).length := by
      simp only [List.length_cons, List.length_append, List.length_singleton]
      omega
    rw [htot, parseReplyGo_spec body2 lastL 1 _
      (fun x hx => hbody x (List.mem_cons_of_mem _ hx)) hlast (by omega)]
    simp

/-- Unfolding equation of the rendering loop on a cons cell. -/
theorem renderReplyGo_cons (maxLen code total idx : Nat) (ln : List Nat)
    (rest : List (List Nat)) :
    renderReplyGo maxLen code total idx (ln :: rest) =
      if maxLen < (natToDec code ++
          (if idx = total - 1 then (32 : Nat) else 45) :: (trimWs ln ++ [13, 10])).length
      then .error .oversizeLine
      else
        match renderReplyGo maxLen code total (idx + 1) rest with
        | .error e => .error e
        | .ok tl => .ok ((natToDec code ++
            (if idx = total - 1 then (32 : Nat) else 45) :: (trimWs ln ++ [13, 10])) ++ tl) :=
  rfl

/-- Reduction of the serializeReply rendering loop on trim-stable short
messages with a three-digit code: every line passes the bound and the
output is the canonical wire rendering. -/
theorem renderReplyGo_spec : ∀ (msgs : List (List Nat)) (k c : Nat),
    200 ≤ c → c ≤ 599 →
    (∀ m ∈ msgs, trimWs m = m ∧ m.length ≤ 506) →
    renderReplyGo 512 c (k + msgs.length) k msgs = .ok (replyWireSpec c msgs) := by
  intro msgs
  induction msgs with
  | nil => intro k c _ _ _; rfl
  | cons m rest ih =>
    intro k c hc1 hc2 hall
    have hm := hall m (List.mem_cons_self _ _)
    have hm2 := hm.2
    have hlen3 : (natToDec c).length = 3 := natToDec_len3 c (by omega) (by omega)
    cases rest with
    | nil =>
      rw [renderReplyGo_cons 512 c (k + [m].length) k m []]
      rw [if_pos (show k = k + [m].length - 1 by simp)]
      rw [if_neg (by
        rw [hm.1]
        simp only [List.length_append, List.length_cons, List.length_nil, hlen3]
        omega)]
      show (match (Except.ok [] : Except RErr (List Nat)) with
        | .error e => Except.error e
        | .ok tl => .ok ((natToDec c ++ (32 : Nat) :: (trimWs m ++ [13, 10])) ++ tl)) = _
      simp [replyWireSpec, hm.1]
    | cons m2 rest2 =>
      rw [renderReplyGo_cons 512 c (k + (m :: m2 :: rest2).length) k m (m2 :: rest2)]
      rw [if_neg (show ¬(k = k + (m :: m2 :: rest2).length - 1) by
        simp only [List.length_cons]
        omega)]
      rw [if_neg (by
        rw [hm.1]
        simp only [List.length_append, List.length_cons, List.length_nil, hlen3]
        omega)]
      have htot : k + (m :: m2 :: rest2).length = (k + 1) + (m2 :: rest2).length := by
        simp only [List.length_cons]
        omega
      rw [htot, ih (k + 1) c hc1 hc2 (fun x hx => hall x (List.mem_cons_of_mem _ hx))]
      simp [replyWireSpec, hm.1, List.append_assoc]

/-- Reduction of serializeReply on a reply whose message equals its
first line (the shape produced by parseReply): the in-place overwrite of
lines[0] is the identity and rendering runs over the lines. -/
theorem serializeReply_on_parsed (c : Nat) (msgs : List (List Nat)) (hc : c ≠ 0)
    (m0 : List Nat) (ms : List (List Nat)) (hmsgs : msgs = m0 :: ms) :
    serializeReply 512 ⟨c, some (msgs.headD []), some msgs⟩ =
      renderReplyGo 512 c msgs.length 0 msgs := by
  subst hmsgs
  unfold serializeReply serializeReplyImpl
  rw [if_neg hc, if_neg (fun hcon => hcon.1 (by simp [linesNonempty]))]
  by_cases hm0 : m0 = []
  · subst hm0
    rw [if_neg (by simp [msgTruthy])]
    rfl
  · have hmt : msgTruthy ⟨c, some ((m0 :: ms).headD []), some (m0 :: ms)⟩ = true := by
      cases m0 with
      | nil => exact absurd rfl hm0
      | cons a r => simp [msgTruthy]
    rw [if_pos hmt]
    simp [setFirst]

/-- Claim C7 (amended): for every nonempty ReplyLine sequence forming
one consistent reply (all lines carry the same valid code in 200..599,
exactly the final line has isLast set) whose messages are trim-stable
and short enough that every rendered line fits maxLineLength (512):
parseReply succeeds, the resulting lines hold every message in order
(as many entries as input lines, first message as Reply.message), and
serializeReply of the parsed reply renders exactly those lines with the
continuation separator on all but the last line and a space on the
last. -/
theorem c7_reply_roundtrip (body : List ReplyLine) (lastL : ReplyLine) (c : Nat)
    (hbody : ∀ rl ∈ body, rl.isLast = false) (hlast : lastL.isLast = true)
    (hcode : ∀ rl ∈ body ++ [lastL], rl.code = c) (hc1 : 200 ≤ c) (hc2 : c ≤ 599)
    (hmsg : ∀ rl ∈ body ++ [lastL], trimWs rl.message = rl.message ∧ rl.message.length ≤ 506) :
    parseReply (body ++ [lastL]) =
      .ok ⟨c, ((body ++ [lastL]).map (fun rl => rl.message)).headD [],
           (body ++ [lastL]).map (fun rl => rl.message)⟩ ∧
    ((body ++ [lastL]).map (fun rl => rl.message)).length = (body ++ [lastL]).length ∧
    serializeReply 512 (toJSReply ⟨c, ((body ++ [lastL]).map (fun rl => rl.message)).headD [],
        (body ++ [lastL]).map (fun rl => rl.message)⟩) =
      .ok (replyWireSpec c ((body ++ [lastL]).map (fun rl => rl.message))) := by
  have hlc : lastL.code = c := hcode lastL (by simp)
  refine ⟨?_, by simp, ?_⟩
  · rw [parseReply_spec body lastL hbody hlast, hlc]
  · obtain ⟨m0, ms, hms⟩ : ∃ m0 ms, (body ++ [lastL]).map (fun rl => rl.message) = m0 :: ms := by
      cases body with
      | nil => exact ⟨lastL.message, [], by simp⟩
      | cons b0 b2 => exact ⟨b0.message, (b2 ++ [lastL]).map (fun rl => rl.message), by simp⟩
    rw [show toJSReply ⟨c, ((body ++ [lastL]).map (fun rl => rl.message)).headD [],
        (body ++ [lastL]).map (fun rl => rl.message)⟩ =
      ⟨c, some (((body ++ [lastL]).map (fun rl => rl.message)).headD []),
       some ((body ++ [lastL]).map (fun rl => rl.message))⟩ from rfl]
    rw [serializeReply_on_parsed c _ (by omega) m0 ms hms]
    have := renderReplyGo_spec ((body ++ [lastL]).map (fun rl => rl.message)) 0 c hc1 hc2 (by
      intro m hm
      obtain ⟨rl, hrl, hrm⟩ := List.mem_map.mp hm
      rw [← hrm]
      exact hmsg rl hrl)
    simpa using this

/-- Claim C7 witness: a two-line 250 reply round-trips to its canonical
wire form. -/
theorem c7_reply_roundtrip_witness :
    parseReply [⟨250, false, [97]⟩, ⟨250, true, [98]⟩] = .ok ⟨250, [97], [[97], [98]]⟩ ∧
    serializeReply 512 ⟨250, some [97], some [[97], [98]]⟩ =
      .ok [50, 53, 48, 45, 97, 13, 10, 50, 53, 48, 32, 98, 13, 10] := by
  have h := c7_reply_roundtrip [⟨250, false, [97]⟩] ⟨250, true, [98]⟩ 250
    (by decide) (by decide) (by decide) (by decide) (by decide) (by decide)
  exact ⟨h.1.trans (by decide), h.2.2.trans (by decide)⟩

set_option maxRecDepth 40000 in
/-- Claim C7 counterexample: a consistent single-line reply whose
message is 600 bytes parses fine, but serializeReply of the parse
result fails with the oversize error instead of rendering the same set
of lines, refuting the unrestricted round-trip. -/
theorem c7_reply_roundtrip_cex :
    parseReply [⟨250, true, List.replicate 600 97⟩] =
      .ok ⟨250, List.replicate 600 97, [List.replicate 600 97]⟩ ∧
    serializeReply 512 (toJSReply ⟨250, List.replicate 600 97, [List.replicate 600 97]⟩) =
      .error .oversizeLine := by
  constructor
  · decide
  · decide

/-- Rendering a parsed parameter reproduces the original token: the
regex split at the first '=' with a nonempty value inverts exactly, and
all other tokens are kept whole as flags. -/
theorem render_parse_param (t : List Nat) : renderParamTok (parseParamTok t) = t := by
  unfold parseParamTok
  rcases hr : t.dropWhile (fun b => b ≠ 61) with _ | ⟨a, v⟩
  · rw [hr]
    rfl
  · have ha : a = 61 := by
      have := head_of_dropWhile (fun b => b ≠ 61) t a (by rw [hr]; rfl)
      simpa using this
    subst ha
    rw [hr]
    show renderParamTok
      (if v = [] then ⟨t, none⟩ else ⟨t.takeWhile (fun b => b ≠ 61), some v⟩) = t
    by_cases hv : v = []
    · rw [if_pos hv]
      rfl
    · rw [if_neg hv]
      show (if v = [] then t.takeWhile (fun b => b ≠ 61)
        else t.takeWhile (fun b => b ≠ 61) ++ 61 :: v) = t
      rw [if_neg hv]
      conv_rhs => rw [← List.takeWhile_append_dropWhile (p := fun b => b ≠ 61) (l := t), hr]

/-- Bytes of a tag-search result come from the searched token. -/
theorem findTagArg_subset (tag : List Nat) : ∀ (t r : List Nat),
    findTagArg tag t = some r → ∀ b ∈ r, b ∈ t := by
  intro t
  induction t with
  | nil => intro r h; simp [findTagArg] at h
  | cons c rest ih =>
    intro r h b hb
    rw [findTagArg] at h
    split_ifs at h with hc
    · have := Option.some.inj h
      subst this
      exact List.mem_of_mem_drop hb
    · exact List.mem_cons_of_mem _ (ih r h b hb)

/-- Head of a trimmed list is not whitespace. -/
theorem trimWs_head_not_ws (l : List Nat) (h : Nat)
    (hh : (trimWs l).head? = some h) : isWs h = false := by
  unfold trimWs at hh
  rw [List.head?_reverse] at hh
  have hne : ((l.dropWhile isWs).reverse.dropWhile isWs) ≠ [] := by
    intro hfalse
    rw [hfalse] at hh
    simp at hh
  obtain ⟨pre, hpre⟩ := List.dropWhile_suffix (l := (l.dropWhile isWs).reverse) (p := isWs)
  have hM : (l.dropWhile isWs).reverse.getLast? = some h := by
    rw [← hpre, List.getLast?_append_of_ne_nil _ hne]
    exact hh
  rw [List.getLast?_reverse] at hM
  exact head_of_dropWhile isWs _ h hM

/-- Last element of a trimmed list is not whitespace. -/
theorem trimWs_getLast_not_ws (l : List Nat) (h : Nat)
    (hh : (trimWs l).getLast? = some h) : isWs h = false := by
  unfold trimWs at hh
  rw [List.getLast?_reverse] at hh
  exact head_of_dropWhile isWs _ h hh

/-- The EHLO branch keeps the dispatch verb. -/
theorem ehloArg_verb (v : List Nat) (ps : List (List Nat)) (cmd : Command)
    (h : ehloArg v ps = .ok cmd) : cmd.verb = v := by
  cases ps with
  | nil => simp [ehloArg] at h
  | cons d rest =>
    simp only [ehloArg] at h
    rw [← Except.ok.inj h]

/-- The MAIL path handling keeps the dispatch verb. -/
theorem mailPath_verb (v : List Nat) (rp : Option (List Nat)) (rest : List (List Nat))
    (cmd : Command) (h : mailPath v rp rest = .ok cmd) : cmd.verb = v := by
  cases rp with
  | none => simp [mailPath] at h
  | some rp =>
    simp only [mailPath] at h
    split_ifs at h <;>
      first
        | exact absurd h (fun hc => Except.noConfusion hc)
        | rw [← Except.ok.inj h]

/-- Inversion of the RCPT finish: success forces a nonempty path. -/
theorem rcptFinish_inv (v fp : List Nat) (rest : List (List Nat)) (cmd : Command)
    (h : rcptFinish v fp rest = .ok cmd) :
    fp ≠ [] ∧ cmd = { verb := v, forwardPath := some fp, params := rest.map parseParamTok } := by
  unfold rcptFinish at h
  split_ifs at h with h1
  all_goals
    first
      | exact absurd h (fun hc => Except.noConfusion hc)
      | exact ⟨h1, (Except.ok.inj h).symm⟩

/-- The RCPT path handling keeps the dispatch verb. -/
theorem rcptPath_verb (v : List Nat) (fp : Option (List Nat)) (rest : List (List Nat))
    (cmd : Command) (h : rcptPath v fp rest = .ok cmd) : cmd.verb = v := by
  cases fp with
  | none => simp [rcptPath] at h
  | some fp =>
    simp only [rcptPath] at h
    split_ifs at h <;>
      first
        | exact absurd h (fun hc => Except.noConfusion hc)
        | rw [(rcptFinish_inv _ _ _ _ h).2]

/-- Every successful parse keeps the first token as the verb. -/
theorem parseTokens_verb (parts : List (List Nat)) (cmd : Command)
    (h : parseTokens parts = .ok cmd) : cmd.verb = parts.headD [] := by
  unfold parseTokens at h
  split_ifs at h with h1 h2 h3
  · exact ehloArg_verb _ _ _ h
  · cases hps : parts.drop 1 with
    | nil => rw [hps] at h; simp [mailArg] at h
    | cons t rest =>
      rw [hps] at h
      simp only [mailArg] at h
      exact mailPath_verb _ _ _ _ h
  · cases hps : parts.drop 1 with
    | nil => rw [hps] at h; simp [rcptArg] at h
    | cons t rest =>
      rw [hps] at h
      simp only [rcptArg] at h
      exact rcptPath_verb _ _ _ _ h
  · rw [← Except.ok.inj h]

/-- Folding the parameters appends their rendered tokens. -/
theorem foldl_render_params : ∀ (ps : List CmdParam) (base : List Nat),
    ps.foldl (fun acc p => acc ++ 32 :: renderParamTok p) base =
      base ++ (ps.map (fun p => 32 :: renderParamTok p)).flatten := by
  intro ps
  induction ps with
  | nil => intro base; simp
  | cons p rest ih =>
    intro base
    rw [List.foldl_cons, ih]
    simp

/-- The rendered command with parameters, as an append. -/
theorem renderWithParams_eq (c : Command) (base : List Nat) :
    renderWithParams c base = base ++ (c.params.map (fun p => 32 :: renderParamTok p)).flatten := by
  unfold renderWithParams
  exact foldl_render_params c.params base

/-- The join of a token list as head plus flattened space-prefixed
tail. -/
theorem joinSp_cons_flatten : ∀ (t : List Nat) (ts : List (List Nat)),
    joinSp (t :: ts) = t ++ (ts.map (fun x => 32 :: x)).flatten := by
  intro t ts
  induction ts generalizing t with
  | nil => simp [joinSp]
  | cons t2 ts2 ih =>
    rw [show joinSp (t :: t2 :: ts2) = t ++ 32 :: joinSp (t2 :: ts2) from rfl, ih t2]
    simp

/-- A command whose parameters come from parsing tokens renders as the
join of verb, argument token and those very tokens. -/
theorem renderWithParams_joinSp (c : Command) (v arg : List Nat)
    (origToks : List (List Nat)) (hparams : c.params = origToks.map parseParamTok) :
    renderWithParams c (v ++ 32 :: arg) = joinSp (v :: arg :: origToks) := by
  rw [renderWithParams_eq, hparams, joinSp_cons_flatten]
  rw [show (arg :: origToks).map (fun x => 32 :: x) =
    (32 :: arg) :: origToks.map (fun x => 32 :: x) from rfl]
  have hmap : (origToks.map parseParamTok).map (fun p => 32 :: renderParamTok p) =
      origToks.map (fun x => 32 :: x) := by
    rw [List.map_map]
    exact List.map_congr_left (fun t _ => by simp [Function.comp, render_parse_param t])
  rw [hmap]
  simp

/-- Evaluation of serializeCommand on a command whose parameters parse
from tokens: the output is the token join with CRLF, guarded by the
length bound. -/
theorem serializeCommand_toks (cmd : Command) (arg : List Nat) (origToks : List (List Nat))
    (hverb : cmd.verb ≠ [])
    (hvp : serializeVerbPart cmd = .ok (cmd.verb ++ 32 :: arg))
    (hparams : cmd.params = origToks.map parseParamTok)
    (hall : ∀ t ∈ cmd.verb :: arg :: origToks, t ≠ [] ∧ ∀ b ∈ t, isWs b = false) :
    serializeCommand 512 (some cmd) =
      if 512 < (joinSp (cmd.verb :: arg :: origToks) ++ [13, 10]).length then
        .error .serializeOversize
      else .ok (joinSp (cmd.verb :: arg :: origToks) ++ [13, 10]) := by
  show (if cmd.verb = [] then Except.error CmdErr.missingVerb
    else serializeFinish 512 cmd (serializeVerbPart cmd)) = _
  rw [if_neg hverb, hvp]
  simp only [serializeFinish]
  rw [renderWithParams_joinSp cmd cmd.verb arg origToks hparams]
  rw [trimWs_joinSp _ (by simp) hall]

/-- Verb part of an EHLO command with a nonempty domain. -/
theorem serializeVerbPart_ehlo (d : List Nat) (hd : d ≠ []) (ps : List CmdParam) :
    serializeVerbPart ⟨strEHLO, some d, none, none, ps⟩ = .ok (strEHLO ++ 32 :: d) := by
  simp [serializeVerbPart, hd]

/-- Verb part of a MAIL command: brackets are always added around the
(possibly empty) return path. -/
theorem serializeVerbPart_mail (rp : List Nat) (ps : List CmdParam) :
    serializeVerbPart ⟨strMAIL, none, some rp, none, ps⟩ =
      .ok (strMAIL ++ 32 :: (strFROM ++ 60 :: (rp ++ [62]))) := by
  simp [serializeVerbPart, strMAIL, strEHLO, strFROM]

/-- Verb part of an RCPT command with a nonempty forward path. -/
theorem serializeVerbPart_rcpt (fp : List Nat) (hfp : fp ≠ []) (ps : List CmdParam) :
    serializeVerbPart ⟨strRCPT, none, none, some fp, ps⟩ =
      .ok (strRCPT ++ 32 :: (strTO ++ 60 :: (fp ++ [62]))) := by
  simp [serializeVerbPart, strRCPT, strEHLO, strMAIL, strTO, hfp]

/-- Reparse of canonical EHLO tokens. -/
theorem parseTokens_ehlo_eval (d : List Nat) (origToks : List (List Nat)) :
    parseTokens (strEHLO :: d :: origToks) =
      .ok ⟨strEHLO, some d, none, none, origToks.map parseParamTok⟩ := by
  unfold parseTokens
  rw [if_pos (show (strEHLO :: d :: origToks).headD [] = strEHLO from rfl)]
  rfl

/-- Reparse of canonical MAIL tokens: the FROM: tag is found at the
start, the brackets are paired and stripped, recovering the return
path. -/
theorem parseTokens_mail_eval (rp : List Nat) (origToks : List (List Nat)) :
    parseTokens (strMAIL :: (strFROM ++ 60 :: (rp ++ [62])) :: origToks) =
      .ok ⟨strMAIL, none, some rp, none, origToks.map parseParamTok⟩ := by
  unfold parseTokens
  rw [if_neg (by rw [List.headD_cons]; decide), if_pos (by rw [List.headD_cons])]
  simp only [List.headD_cons, List.drop_succ_cons, List.drop_zero, mailArg]
  rw [findTagArg_self strFROM (60 :: (rp ++ [62])) (by decide) (by simp)]
  simp only [mailPath]
  rw [if_pos (show (60 :: (rp ++ [62])).head? = some 60 from rfl)]
  rw [if_pos (show (60 :: (rp ++ [62])).getLast? = some 62 from by
    rw [show (60 : Nat) :: (rp ++ [62]) = (60 :: rp) ++ [62] from rfl, List.getLast?_concat])]
  rw [show ((60 : Nat) :: (rp ++ [62])).drop 1 = rp ++ [62] from rfl, List.dropLast_concat]

/-- Reparse of canonical RCPT tokens with a nonempty forward path. -/
theorem parseTokens_rcpt_eval (fp : List Nat) (hfp : fp ≠ []) (origToks : List (List Nat)) :
    parseTokens (strRCPT :: (strTO ++ 60 :: (fp ++ [62])) :: origToks) =
      .ok ⟨strRCPT, none, none, some fp, origToks.map parseParamTok⟩ := by
  unfold parseTokens
  rw [if_neg (by rw [List.headD_cons]; decide), if_neg (by rw [List.headD_cons]; decide),
    if_pos (by rw [List.headD_cons])]
  simp only [List.headD_cons, List.drop_succ_cons, List.drop_zero, rcptArg]
  rw [findTagArg_self strTO (60 :: (fp ++ [62])) (by decide) (by simp)]
  simp only [rcptPath]
  rw [if_pos (show (60 :: (fp ++ [62])).head? = some 60 from rfl)]
  rw [if_pos (show (60 :: (fp ++ [62])).getLast? = some 62 from by
    rw [show (60 : Nat) :: (fp ++ [62]) = (60 :: fp) ++ [62] from rfl, List.getLast?_concat])]
  rw [show ((60 : Nat) :: (fp ++ [62])).drop 1 = fp ++ [62] from rfl, List.dropLast_concat]
  unfold rcptFinish
  rw [if_neg hfp]

/-- Round-trip finish: from a successful serialization of a command
whose canonical tokens are known, recover the canonical output shape
and reparse it to the same command. -/
theorem c5_finish (cmd : Command) (arg : List Nat) (origToks : List (List Nat)) (out : List Nat)
    (hverb : cmd.verb ≠ [])
    (hvp : serializeVerbPart cmd = .ok (cmd.verb ++ 32 :: arg))
    (hparams : cmd.params = origToks.map parseParamTok)
    (hall : ∀ t ∈ cmd.verb :: arg :: origToks, t ≠ [] ∧ ∀ b ∈ t, isWs b = false)
    (hs : serializeCommand 512 (some cmd) = .ok out)
    (hreparse : parseTokens (cmd.verb :: arg :: origToks) = .ok cmd) :
    out = joinSp (cmd.verb :: arg :: origToks) ++ [13, 10] ∧
    parseCommandLine 512 out = .ok cmd ∧ out.drop (out.length - 2) = [13, 10] := by
  have hser := serializeCommand_toks cmd arg origToks hverb hvp hparams hall
  rw [hser] at hs
  by_cases hfit : 512 < (joinSp (cmd.verb :: arg :: origToks) ++ [13, 10]).length
  · rw [if_pos hfit] at hs
    exact absurd hs (fun hc => Except.noConfusion hc)
  · rw [if_neg hfit] at hs
    have hout : out = joinSp (cmd.verb :: arg :: origToks) ++ [13, 10] := (Except.ok.inj hs).symm
    refine ⟨hout, ?_, ?_⟩
    · rw [hout]
      rw [parseCommandLine_eval 512 _ (cmd.verb :: arg :: origToks)
        (by simp) (trimWs_joinSp_crlf _ (by simp) hall) (by simp) hall
        (by
          simp only [List.length_append, List.length_cons, List.length_nil] at hfit
          omega)]
      exact hreparse
    · rw [hout]
      have hlen2 : (joinSp (cmd.verb :: arg :: origToks) ++ [13, 10]).length - 2 =
          (joinSp (cmd.verb :: arg :: origToks)).length := by
        simp only [List.length_append, List.length_cons, List.length_nil]
        omega
      rw [hlen2, List.drop_left]

/-- Cleanliness of a canonical bracketed path argument token. -/
theorem bracket_arg_clean (tag : List Nat) (htag : ∀ b ∈ tag, isWs b = false) (rp : List Nat)
    (hrp : ∀ b ∈ rp, isWs b = false) :
    ∀ b ∈ tag ++ 60 :: (rp ++ [62]), isWs b = false := by
  intro b hb
  rcases List.mem_append.mp hb with h | h
  · exact htag b h
  · rcases List.mem_cons.mp h with rfl | h2
    · decide
    · rcases List.mem_append.mp h2 with h3 | h3
      · exact hrp b h3
      · simp at h3
        subst h3
        decide

/-- Claim C5 (amended): for every valid command line with a recognized
verb (EHLO, MAIL, RCPT) and well-formed arguments whose canonical
serialization fits in maxLineLength (512), serializeCommand of the
parsed command succeeds and produces an equivalent canonical command
line: it is CRLF-terminated, whitespace-normalized, and reparses to
exactly the same command (same verb, same normalized verb argument,
same params in order). -/
theorem c5_command_roundtrip (line : List Nat) (cmd : Command)
    (hp : parseCommandLine 512 line = .ok cmd)
    (hv : cmd.verb = strEHLO ∨ cmd.verb = strMAIL ∨ cmd.verb = strRCPT)
    (out : List Nat) (hs : serializeCommand 512 (some cmd) = .ok out) :
    parseCommandLine 512 out = .ok cmd ∧ out.drop (out.length - 2) = [13, 10] := by
  have hne : line ≠ [] := by
    intro h
    rw [h] at hp
    simp [parseCommandLine] at hp
  unfold parseCommandLine at hp
  rw [if_neg hne] at hp
  by_cases h2 : 512 - 2 < (trimWs line).length
  · rw [if_pos h2] at hp
    exact absurd hp (fun hc => Except.noConfusion hc)
  rw [if_neg h2] at hp
  by_cases h3 : (trimWs line).any (fun b => b = 13 || b = 10) = true
  · rw [if_pos h3] at hp
    exact absurd hp (fun hc => Except.noConfusion hc)
  rw [if_neg h3] at hp
  by_cases hl : trimWs line = []
  · rw [hl] at hp
    rw [show splitWs ([] : List Nat) = [[]] from rfl] at hp
    have hverbeq := parseTokens_verb _ _ hp
    rw [hverbeq] at hv
    rcases hv with h | h | h <;> exact absurd h (by decide)
  have hsplit : splitWs (trimWs line) = wsSplit (trimWs line) := by
    unfold splitWs
    rw [if_neg hl]
  rw [hsplit] at hp
  have htoks := wsSplit_tokens (trimWs line) (fun h hh => trimWs_head_not_ws line h hh)
  obtain ⟨tok0, ptail, hparts⟩ : ∃ t0 ts, wsSplit (trimWs line) = t0 :: ts := by
    cases hcase : trimWs line with
    | nil => exact absurd hcase hl
    | cons b rest => exact ⟨_, _, by rw [wsSplit_cons_eq]⟩
  rw [hparts] at hp htoks
  have hverbeq := parseTokens_verb _ _ hp
  simp only [List.headD_cons] at hverbeq
  rcases hv with hV | hV | hV
  · -- EHLO
    have htok0 : tok0 = strEHLO := hverbeq.symm.trans hV
    subst htok0
    unfold parseTokens at hp
    rw [if_pos (by rw [List.headD_cons])] at hp
    simp only [List.headD_cons, List.drop_succ_cons, List.drop_zero] at hp
    cases hps : ptail with
    | nil =>
      rw [hps] at hp
      exact absurd hp (by simp [ehloArg])
    | cons d origToks =>
      rw [hps] at hp
      simp only [ehloArg] at hp
      have hcmd : cmd = ⟨strEHLO, some d, none, none, origToks.map parseParamTok⟩ :=
        (Except.ok.inj hp).symm
      have halltoks : ∀ t ∈ strEHLO :: d :: origToks, t ≠ [] ∧ ∀ b ∈ t, isWs b = false := by
        intro t ht
        rcases List.mem_cons.mp ht with rfl | ht2
        · exact ⟨by decide, by decide⟩
        · exact htoks t (by rw [hps]; exact List.mem_cons_of_mem _ ht2)
      have hfin := c5_finish cmd d origToks out
        (by rw [hcmd]; simp [strEHLO])
        (by rw [hcmd]; exact serializeVerbPart_ehlo d (halltoks d (by simp)).1 _)
        (by rw [hcmd])
        (by rw [hcmd]; exact halltoks)
        hs
        (by rw [hcmd]; exact parseTokens_ehlo_eval d origToks)
      exact ⟨hfin.2.1, hfin.2.2⟩
  · -- MAIL
    have htok0 : tok0 = strMAIL := hverbeq.symm.trans hV
    subst htok0
    unfold parseTokens at hp
    rw [if_neg (by rw [List.headD_cons]; decide), if_pos (by rw [List.headD_cons])] at hp
    simp only [List.headD_cons, List.drop_succ_cons, List.drop_zero] at hp
    cases hps : ptail with
    | nil =>
      rw [hps] at hp
      exact absurd hp (by simp [mailArg])
    | cons t origToks =>
      rw [hps] at hp
      simp only [mailArg] at hp
      have htfacts := htoks t (by rw [hps]; exact List.mem_cons_of_mem _ (List.mem_cons_self _ _))
      cases hf : findTagArg strFROM t with
      | none =>
        rw [hf] at hp
        exact absurd hp (by simp [mailPath])
      | some rp0 =>
        rw [hf] at hp
        simp only [mailPath] at hp
        have hrp0sub : ∀ b ∈ rp0, b ∈ t := findTagArg_subset strFROM t rp0 hf
        have hrp0clean : ∀ b ∈ rp0, isWs b = false := fun b hb => htfacts.2 b (hrp0sub b hb)
        have hrestcl : ∀ x ∈ origToks, x ≠ [] ∧ ∀ b ∈ x, isWs b = false := fun x hx =>
          htoks x (by rw [hps]; exact List.mem_cons_of_mem _ (List.mem_cons_of_mem _ hx))
        by_cases hb1 : rp0.head? = some 60
        · rw [if_pos hb1] at hp
          by_cases hb2 : rp0.getLast? = some 62
          · rw [if_pos hb2] at hp
            have hcmd : cmd = ⟨strMAIL, none, some ((rp0.drop 1).dropLast), none,
                origToks.map parseParamTok⟩ := (Except.ok.inj hp).symm
            have hrpclean : ∀ b ∈ (rp0.drop 1).dropLast, isWs b = false := fun b hb =>
              hrp0clean b (List.mem_of_mem_drop ((List.dropLast_sublist _).subset hb))
            have halltoks : ∀ x ∈ strMAIL :: (strFROM ++ 60 :: ((rp0.drop 1).dropLast ++ [62]))
                :: origToks, x ≠ [] ∧ ∀ b ∈ x, isWs b = false := by
              intro x hx
              rcases List.mem_cons.mp hx with rfl | hx2
              · exact ⟨by decide, by decide⟩
              rcases List.mem_cons.mp hx2 with rfl | hx3
              · exact ⟨by simp [strFROM], bracket_arg_clean strFROM (by decide) _ hrpclean⟩
              · exact hrestcl x hx3
            have hfin := c5_finish cmd (strFROM ++ 60 :: ((rp0.drop 1).dropLast ++ [62]))
              origToks out
              (by rw [hcmd]; simp [strMAIL])
              (by rw [hcmd]; exact serializeVerbPart_mail _ _)
              (by rw [hcmd])
              (by rw [hcmd]; exact halltoks)
              hs
              (by rw [hcmd]; exact parseTokens_mail_eval _ origToks)
            exact ⟨hfin.2.1, hfin.2.2⟩
          · rw [if_neg hb2] at hp
            exact absurd hp (fun hc => Except.noConfusion hc)
        · rw [if_neg hb1] at hp
          have hcmd : cmd = ⟨strMAIL, none, some rp0, none, origToks.map parseParamTok⟩ :=
            (Except.ok.inj hp).symm
          have halltoks : ∀ x ∈ strMAIL :: (strFROM ++ 60 :: (rp0 ++ [62])) :: origToks,
              x ≠ [] ∧ ∀ b ∈ x, isWs b = false := by
            intro x hx
            rcases List.mem_cons.mp hx with rfl | hx2
            · exact ⟨by decide, by decide⟩
            rcases List.mem_cons.mp hx2 with rfl | hx3
            · exact ⟨by simp [strFROM], bracket_arg_clean strFROM (by decide) _ hrp0clean⟩
            · exact hrestcl x hx3
          have hfin := c5_finish cmd (strFROM ++ 60 :: (rp0 ++ [62])) origToks out
            (by rw [hcmd]; simp [strMAIL])
            (by rw [hcmd]; exact serializeVerbPart_mail _ _)
            (by rw [hcmd])
            (by rw [hcmd]; exact halltoks)
            hs
            (by rw [hcmd]; exact parseTokens_mail_eval _ origToks)
          exact ⟨hfin.2.1, hfin.2.2⟩
  · -- RCPT
    have htok0 : tok0 = strRCPT := hverbeq.symm.trans hV
    subst htok0
    unfold parseTokens at hp
    rw [if_neg (by rw [List.headD_cons]; decide), if_neg (by rw [List.headD_cons]; decide),
      if_pos (by rw [List.headD_cons])] at hp
    simp only [List.headD_cons, List.drop_succ_cons, List.drop_zero] at hp
    cases hps : ptail with
    | nil =>
      rw [hps] at hp
      exact absurd hp (by simp [rcptArg])
    | cons t origToks =>
      rw [hps] at hp
      simp only [rcptArg] at hp
      have htfacts := htoks t (by rw [hps]; exact List.mem_cons_of_mem _ (List.mem_cons_self _ _))
      cases hf : findTagArg strTO t with
      | none =>
        rw [hf] at hp
        exact absurd hp (by simp [rcptPath])
      | some fp0 =>
        rw [hf] at hp
        simp only [rcptPath] at hp
        have hfp0sub : ∀ b ∈ fp0, b ∈ t := findTagArg_subset strTO t fp0 hf
        have hfp0clean : ∀ b ∈ fp0, isWs b = false := fun b hb => htfacts.2 b (hfp0sub b hb)
        have hrestcl : ∀ x ∈ origToks, x ≠ [] ∧ ∀ b ∈ x, isWs b = false := fun x hx =>
          htoks x (by rw [hps]; exact List.mem_cons_of_mem _ (List.mem_cons_of_mem _ hx))
        by_cases hb1 : fp0.head? = some 60
        · rw [if_pos hb1] at hp
          by_cases hb2 : fp0.getLast? = some 62
          · rw [if_pos hb2] at hp
            obtain ⟨hfpne, hcmd⟩ := rcptFinish_inv _ _ _ _ hp
            have hfpclean : ∀ b ∈ (fp0.drop 1).dropLast, isWs b = false := fun b hb =>
              hfp0clean b (List.mem_of_mem_drop ((List.dropLast_sublist _).subset hb))
            have halltoks : ∀ x ∈ strRCPT :: (strTO ++ 60 :: ((fp0.drop 1).dropLast ++ [62]))
                :: origToks, x ≠ [] ∧ ∀ b ∈ x, isWs b = false := by
              intro x hx
              rcases List.mem_cons.mp hx with rfl | hx2
              · exact ⟨by decide, by decide⟩
              rcases List.mem_cons.mp hx2 with rfl | hx3
              · exact ⟨by simp [strTO], bracket_arg_clean strTO (by decide) _ hfpclean⟩
              · exact hrestcl x hx3
            have hfin := c5_finish cmd (strTO ++ 60 :: ((fp0.drop 1).dropLast ++ [62]))
              origToks out
              (by rw [hcmd]; simp [strRCPT])
              (by rw [hcmd]; exact serializeVerbPart_rcpt _ hfpne _)
              (by rw [hcmd])
              (by rw [hcmd]; exact halltoks)
              hs
              (by rw [hcmd]; exact parseTokens_rcpt_eval _ hfpne origToks)
            exact ⟨hfin.2.1, hfin.2.2⟩
          · rw [if_neg hb2] at hp
            exact absurd hp (fun hc => Except.noConfusion hc)
        · rw [if_neg hb1] at hp
          obtain ⟨hfpne, hcmd⟩ := rcptFinish_inv _ _ _ _ hp
          have halltoks : ∀ x ∈ strRCPT :: (strTO ++ 60 :: (fp0 ++ [62])) :: origToks,
              x ≠ [] ∧ ∀ b ∈ x, isWs b = false := by
            intro x hx
            rcases List.mem_cons.mp hx with rfl | hx2
            · exact ⟨by decide, by decide⟩
            rcases List.mem_cons.mp hx2 with rfl | hx3
            · exact ⟨by simp [strTO], bracket_arg_clean strTO (by decide) _ hfp0clean⟩
            · exact hrestcl x hx3
          have hfin := c5_finish cmd (strTO ++ 60 :: (fp0 ++ [62])) origToks out
            (by rw [hcmd]; simp [strRCPT])
            (by rw [hcmd]; exact serializeVerbPart_rcpt _ hfpne _)
            (by rw [hcmd])
            (by rw [hcmd]; exact halltoks)
            hs
            (by rw [hcmd]; exact parseTokens_rcpt_eval _ hfpne origToks)
          exact ⟨hfin.2.1, hfin.2.2⟩

/-- Claim C5 witness: MAIL FROM:<a@b> round-trips to its canonical
CRLF-terminated form and reparses to the same command. -/
theorem c5_command_roundtrip_witness :
    parseCommandLine 512 [77, 65, 73, 76, 32, 70, 82, 79, 77, 58, 60, 97, 64, 98, 62] =
      .ok ⟨strMAIL, none, some [97, 64, 98], none, []⟩ ∧
    serializeCommand 512 (some ⟨strMAIL, none, some [97, 64, 98], none, []⟩) =
      .ok [77, 65, 73, 76, 32, 70, 82, 79, 77, 58, 60, 97, 64, 98, 62, 13, 10] ∧
    parseCommandLine 512 [77, 65, 73, 76, 32, 70, 82, 79, 77, 58, 60, 97, 64, 98, 62, 13, 10] =
      .ok ⟨strMAIL, none, some [97, 64, 98], none, []⟩ ∧
    [77, 65, 73, 76, 32, 70, 82, 79, 77, 58, 60, 97, 64, 98, 62, 13, 10].drop
      ([77, 65, 73, 76, 32, 70, 82, 79, 77, 58, 60, 97, 64, 98, 62, 13, 10].length - 2) =
      [13, 10] := by
  have hp : parseCommandLine 512 [77, 65, 73, 76, 32, 70, 82, 79, 77, 58, 60, 97, 64, 98, 62] =
      .ok ⟨strMAIL, none, some [97, 64, 98], none, []⟩ := by decide
  have hs : serializeCommand 512 (some ⟨strMAIL, none, some [97, 64, 98], none, []⟩) =
      .ok [77, 65, 73, 76, 32, 70, 82, 79, 77, 58, 60, 97, 64, 98, 62, 13, 10] := by decide
  exact ⟨hp, hs, c5_command_roundtrip _ _ hp (Or.inr (Or.inl rfl)) _ hs⟩

set_option maxRecDepth 100000 in
/-- Claim C5 counterexample: the 510-byte line MAIL FROM: followed by
500 bytes of path without brackets parses successfully (it is exactly at
the parser's limit and well formed), but serializing the parsed command
fails with the oversize error, because the serializer adds the angle
brackets; so the round-trip does not hold for every valid command
line. -/
theorem c5_command_roundtrip_cex :
    parseCommandLine 512 ([77, 65, 73, 76, 32, 70, 82, 79, 77, 58] ++ List.replicate 500 97) =
      .ok ⟨strMAIL, none, some (List.replicate 500 97), none, []⟩ ∧
    serializeCommand 512 (some ⟨strMAIL, none, some (List.replicate 500 97), none, []⟩) =
      .error .serializeOversize := by
  exact ⟨by decide, by decide⟩

/-- The encoder loop distributes over append with threaded lastChar. -/
theorem encLoop_append : ∀ (a b : List Nat) (last : Nat),
    encLoop last (a ++ b) =
      ((encLoop last a).1 ++ (encLoop (encLoop last a).2 b).1,
       (encLoop (encLoop last a).2 b).2) := by
  intro a
  induction a with
  | nil => intro b last; simp [encLoop]
  | cons c rest ih =>
    intro b last
    simp only [List.cons_append, encLoop]
    simp [ih]

/-- The chunked encoder run equals encoding the concatenation: the
instance lastChar threads across transform calls and the staging buffer
only groups output. -/
theorem dotEncodeChunks_flatten (chunks : List (List Nat)) :
    dotEncodeChunks chunks = dotEncode chunks.flatten := by
  suffices h : ∀ (cs : List (List Nat)) (acc : List Nat) (last : Nat),
      cs.foldl (fun (a : List Nat × Nat) ch =>
        let s := encLoop a.2 ch
        (a.1 ++ s.1, s.2)) (acc, last) =
      (acc ++ (encLoop last cs.flatten).1, (encLoop last cs.flatten).2) by
    unfold dotEncodeChunks dotEncode
    rw [h chunks [] 0]
    simp
  intro cs
  induction cs with
  | nil => intro acc last; simp [encLoop]
  | cons ch rest ih =>
    intro acc last
    rw [List.foldl_cons, ih, List.flatten_cons, encLoop_append]
    simp

/-- Clean bytes pass through the encoder unchanged when not at a line
start and not after a carriage return. -/
theorem encLoop_content : ∀ (bs : List Nat), (∀ b ∈ bs, cleanByte b) →
    ∀ last, last ≠ 0 → last ≠ 10 → last ≠ 13 →
    encLoop last (bs ++ [13, 10]) = (bs ++ [13, 10], 10) := by
  intro bs
  induction bs with
  | nil =>
    intro _ last h0 h10 h13
    simp [encLoop, encStep, h0, h10, h13]
  | cons b bs ih =>
    intro hcl last h0 h10 h13
    obtain ⟨hb0, hb10, hb13⟩ := hcl b (List.mem_cons_self _ _)
    rw [List.cons_append, encLoop]
    rw [show encStep last b = ([b], b) from by simp [encStep, h0, h10, h13, hb10]]
    rw [ih (fun x hx => hcl x (List.mem_cons_of_mem _ hx)) b hb0 hb10 hb13]
    rfl

/-- One clean line at a line start encodes to its stuffed form plus
CRLF, ending after the LF. -/
theorem encLoop_line (bs : List Nat) (hcl : ∀ b ∈ bs, cleanByte b) (last : Nat)
    (hstart : last = 0 ∨ last = 10) :
    encLoop last (bs ++ [13, 10]) = (stuffLine bs ++ [13, 10], 10) := by
  have h13 : last ≠ 13 := by rcases hstart with rfl | rfl <;> decide
  cases bs with
  | nil =>
    rw [show stuffLine [] = [] from rfl]
    simp [encLoop, encStep, h13, hstart]
  | cons b bs =>
    obtain ⟨hb0, hb10, hb13⟩ := hcl b (List.mem_cons_self _ _)
    by_cases hb46 : b = 46
    · subst hb46
      rw [List.cons_append, encLoop]
      rw [show encStep last 46 = ([46, 46], 46) from by simp [encStep, hstart]]
      rw [encLoop_content bs (fun x hx => hcl x (List.mem_cons_of_mem _ hx)) 46
        (by decide) (by decide) (by decide)]
      rw [show stuffLine (46 :: bs) = 46 :: 46 :: bs from by simp [stuffLine]]
      simp
    · rw [List.cons_append, encLoop]
      rw [show encStep last b = ([b], b) from by simp [encStep, hb46, hb10, h13]]
      rw [encLoop_content bs (fun x hx => hcl x (List.mem_cons_of_mem _ hx)) b hb0 hb10 hb13]
      rw [show stuffLine (b :: bs) = b :: bs from by simp [stuffLine, hb46]]
      simp

/-- From a line start, the encoder maps a sequence of clean lines to
their stuffed, CRLF-terminated forms, ending after an LF (or untouched
when there are no lines). -/
theorem encLoop_lines : ∀ (ls : List (List Nat)),
    (∀ l ∈ ls, ∀ b ∈ l, cleanByte b) →
    ∀ last, (last = 0 ∨ last = 10) →
    encLoop last (linesToBytes ls) =
      ((ls.map (fun l => stuffLine l ++ [13, 10])).flatten,
       if ls = [] then last else 10) := by
  intro ls
  induction ls with
  | nil =>
    intro _ last _
    simp [linesToBytes, encLoop]
  | cons l rest ih =>
    intro hcl last hstart
    rw [show linesToBytes (l :: rest) = (l ++ [13, 10]) ++ linesToBytes rest from by
      simp [linesToBytes]]
    rw [encLoop_append, encLoop_line l (fun b hb => hcl l (List.mem_cons_self _ _) b hb) last hstart]
    rw [ih (fun x hx => hcl x (List.mem_cons_of_mem _ hx)) 10 (Or.inr rfl)]
    cases rest with
    | nil => simp
    | cons m ms => simp

/-- The encoder output for a clean, nonempty line sequence is exactly
the wire form: stuffed CRLF lines followed by the terminating dot line. -/
theorem dotEncode_wire (ls : List (List Nat)) (hne : ls ≠ [])
    (hcl : ∀ l ∈ ls, ∀ b ∈ l, cleanByte b) :
    dotEncode (linesToBytes ls) = wireOf ls := by
  unfold dotEncode wireOf
  rw [encLoop_lines ls hcl 0 (Or.inl rfl)]
  rw [if_neg hne]
  rfl

/-- Unfolding equation for one decoder step on a cons cell. -/
theorem decGo_cons (last : Nat) (st : DecSt) (c : Nat) (rest : List Nat) :
    decGo last st (c :: rest) =
      if 1000 < st.buf.length then .error .oversize
      else if st.buf.length = 1000 then .error .range
      else
        if last = 13 ∧ c = 10 then
          if (st.buf ++ [c]).head? = some 46 then
            if (st.buf ++ [c]).length = 3 then
              .ok ⟨st.out, [], if st.buf.length = 999 then c else st.b999, true⟩
            else decGo c ⟨st.out ++ (st.buf ++ [c]).drop 1, [],
              if st.buf.length = 999 then c else st.b999, st.term⟩ rest
          else decGo c ⟨st.out ++ (st.buf ++ [c]), [],
            if st.buf.length = 999 then c else st.b999, st.term⟩ rest
        else decGo c ⟨st.out, st.buf ++ [c],
          if st.buf.length = 999 then c else st.b999, st.term⟩ rest := rfl

/-- The decoder loop splits over append: unless the first part hits an
error or the end-of-data line, the second part resumes with the first
part's final byte as lastChar. -/
theorem decGo_append : ∀ (a b : List Nat) (last : Nat) (st : DecSt), st.term = false →
    decGo last st (a ++ b) =
      (match decGo last st a with
       | .error e => .error e
       | .ok st2 => if st2.term = true then .ok st2 else decGo (a.getLastD last) st2 b) := by
  intro a
  induction a with
  | nil =>
    intro b last st hterm
    simp [decGo, hterm]
  | cons c a ih =>
    intro b last st hterm
    rw [List.cons_append, decGo_cons, decGo_cons]
    by_cases h1 : 1000 < st.buf.length
    · rw [if_pos h1, if_pos h1]
    · rw [if_neg h1, if_neg h1]
      by_cases h2 : st.buf.length = 1000
      · rw [if_pos h2, if_pos h2]
      · rw [if_neg h2, if_neg h2]
        by_cases he : last = 13 ∧ c = 10
        · rw [if_pos he, if_pos he]
          by_cases hh : (st.buf ++ [c]).head? = some 46
          · rw [if_pos hh, if_pos hh]
            by_cases hl : (st.buf ++ [c]).length = 3
            · rw [if_pos hl, if_pos hl]
              simp
            · rw [if_neg hl, if_neg hl, List.getLastD_cons]
              exact ih b c _ hterm
          · rw [if_neg hh, if_neg hh, List.getLastD_cons]
            exact ih b c _ hterm
        · rw [if_neg he, if_neg he, List.getLastD_cons]
          exact ih b c _ hterm

/-- The per-call lastChar seed is irrelevant when the chunk does not
start with an LF byte. -/
theorem decGo_seed (st : DecSt) (ch : List Nat)
    (hch : ∀ c, ch.head? = some c → c ≠ 10) (s1 s2 : Nat) :
    decGo s1 st ch = decGo s2 st ch := by
  cases ch with
  | nil => rfl
  | cons c rest =>
    have hc : c ≠ 10 := hch c rfl
    have h1 : ¬(s1 = 13 ∧ c = 10) := fun h => hc h.2
    have h2 : ¬(s2 = 13 ∧ c = 10) := fun h => hc h.2
    rw [decGo_cons, decGo_cons, if_neg h1, if_neg h2]

/-- A terminated decoder ignores all further chunks. -/
theorem decChunksGo_term : ∀ (chunks : List (List Nat)) (st : DecSt), st.term = true →
    decChunksGo st chunks = .ok st := by
  intro chunks
  induction chunks with
  | nil => intro st _; rfl
  | cons ch rest ih =>
    intro st h
    show (match decChunk st ch with
      | .error e => (Except.error e : Except DecErr DecSt)
      | .ok st1 => decChunksGo st1 rest) = .ok st
    rw [show decChunk st ch = .ok st from by rw [decChunk, if_pos h]]
    exact ih st h

/-- The head of a flattened list of lists is the head of one of its
members. -/
theorem flatten_head_mem : ∀ (ls : List (List Nat)) (c : Nat),
    ls.flatten.head? = some c → ∃ l ∈ ls, l.head? = some c := by
  intro ls
  induction ls with
  | nil => intro c h; simp at h
  | cons l rest ih =>
    intro c h
    cases l with
    | nil =>
      rw [List.flatten_cons, List.nil_append] at h
      obtain ⟨l, hl, hc⟩ := ih c h
      exact ⟨l, List.mem_cons_of_mem _ hl, hc⟩
    | cons b bs =>
      rw [List.flatten_cons, List.cons_append, List.head?_cons] at h
      exact ⟨b :: bs, List.mem_cons_self _ _, h⟩

/-- Running the decoder chunk by chunk from an unterminated state equals
one run over the concatenation, provided no chunk after the first starts
with an LF byte (so the buffer-index-999 lastChar seed is never
consulted on a byte that matters). -/
theorem decChunksGo_whole : ∀ (chunks : List (List Nat)) (st : DecSt), st.term = false →
    (∀ ch ∈ chunks.drop 1, ∀ c, ch.head? = some c → c ≠ 10) →
    decChunksGo st chunks = decGo st.b999 st chunks.flatten := by
  intro chunks
  induction chunks with
  | nil => intro st _ _; rfl
  | cons ch rest ih =>
    intro st hterm hsplit
    rw [List.flatten_cons, decGo_append ch rest.flatten st.b999 st hterm]
    show (match decChunk st ch with
      | .error e => (Except.error e : Except DecErr DecSt)
      | .ok st1 => decChunksGo st1 rest) = _
    rw [show decChunk st ch = decGo st.b999 st ch from by
      rw [decChunk, if_neg (by rw [hterm]; exact Bool.false_ne_true)]]
    cases hres : decGo st.b999 st ch with
    | error e => rfl
    | ok st2 =>
      show decChunksGo st2 rest =
        if st2.term = true then .ok st2 else decGo (ch.getLastD st.b999) st2 rest.flatten
      by_cases ht2 : st2.term = true
      · rw [if_pos ht2]
        exact decChunksGo_term rest st2 ht2
      · rw [if_neg ht2]
        have ht2' : st2.term = false := Bool.not_eq_true _ ▸ ht2
        rw [ih st2 ht2' (fun ch' h' => hsplit ch' (List.drop_subset 1 rest h'))]
        exact decGo_seed st2 rest.flatten
          (fun c hc => by
            obtain ⟨l, hl, hlc⟩ := flatten_head_mem rest c hc
            exact hsplit l hl c hlc)
          st2.b999 (ch.getLastD st.b999)

/-- LF-free bytes only accumulate in the decoder's line buffer while the
write offset stays below the buffer end. -/
theorem decGo_accum : ∀ (bs : List Nat), (∀ b ∈ bs, b ≠ 10) →
    ∀ (more : List Nat) (last : Nat) (st : DecSt),
    st.buf.length + bs.length ≤ 999 →
    decGo last st (bs ++ more) =
      decGo (bs.getLastD last) ⟨st.out, st.buf ++ bs, st.b999, st.term⟩ more := by
  intro bs
  induction bs with
  | nil =>
    intro _ more last st _
    rw [List.nil_append, List.append_nil]
    rfl
  | cons b bs ih =>
    intro hb more last st hlen
    rw [List.length_cons] at hlen
    rw [List.cons_append, decGo_cons]
    rw [if_neg (show ¬1000 < st.buf.length by omega)]
    rw [if_neg (show ¬st.buf.length = 1000 by omega)]
    rw [if_neg (show ¬(last = 13 ∧ b = 10) from
      fun h => hb b (List.mem_cons_self _ _) h.2)]
    rw [show (if st.buf.length = 999 then b else st.b999) = st.b999 from
      if_neg (by omega)]
    rw [ih (fun x hx => hb x (List.mem_cons_of_mem _ hx)) more b
      ⟨st.out, st.buf ++ [b], st.b999, st.term⟩
      (by rw [List.length_append]; simp; omega)]
    rw [List.getLastD_cons]
    show decGo (bs.getLastD b) ⟨st.out, (st.buf ++ [b]) ++ bs, st.b999, st.term⟩ more = _
    rw [List.append_assoc, List.singleton_append]

theorem decGo_line (s : List Nat) (hs : ∀ b ∈ s, b ≠ 10 ∧ b ≠ 13)
    (hlen : s.length ≤ 997) (hhd : s.head? = some 46 → 2 ≤ s.length)
    (more : List Nat) (last : Nat) (st : DecSt) (hbuf : st.buf = []) :
    decGo last st ((s ++ [13, 10]) ++ more) =
      decGo 10 ⟨st.out ++ ((if s.head? = some 46 then s.drop 1 else s) ++ [13, 10]),
        [], st.b999, st.term⟩ more := by
  have hsplit2 : (s ++ [13, 10]) ++ more = (s ++ [13]) ++ (10 :: more) := by simp
  have hno10 : ∀ b ∈ s ++ [13], b ≠ 10 := by
    intro b hb
    rcases List.mem_append.mp hb with h | h
    · exact (hs b h).1
    · rw [List.mem_singleton.mp h]; decide
  have hacc : st.buf.length + (s ++ [13]).length ≤ 999 := by
    rw [hbuf]; simp; omega
  rw [hsplit2, decGo_accum (s ++ [13]) hno10 (10 :: more) last st hacc]
  rw [List.getLastD_concat, hbuf, List.nil_append]
  rw [decGo_cons]
  simp only []
  have g1 : ¬1000 < (s ++ [13]).length := by simp; omega
  rw [if_neg g1]
  have g2 : ¬(s ++ [13]).length = 1000 := by simp; omega
  rw [if_neg g2]
  have g3 : True ∧ True := ⟨trivial, trivial⟩
  rw [if_pos g3]
  have g4 : ¬(s ++ [13]).length = 999 := by simp; omega
  rw [if_neg g4]
  by_cases hh : s.head? = some 46
  · cases s with
    | nil => exact absurd hh (by decide)
    | cons a s' =>
      have ha : a = 46 := by
        rw [List.head?_cons] at hh
        exact Option.some.inj hh
      subst ha
      have g5 : (((46 :: s') ++ [13]) ++ [10]).head? = some 46 := rfl
      rw [if_pos g5]
      have h2le : 2 ≤ (46 :: s').length := hhd hh
      have hs'ne : s' ≠ [] := by
        intro h
        subst h
        simp at h2le
      have g6 : ¬(((46 :: s') ++ [13]) ++ [10]).length = 3 := by simp [hs'ne]
      rw [if_neg g6]
      rw [if_pos hh]
      have hdrop : (((46 :: s') ++ [13]) ++ [10]).drop 1 = (46 :: s').drop 1 ++ [13, 10] := by
        simp
      rw [hdrop]
  · have hh2 : ¬((s ++ [13]) ++ [10]).head? = some 46 := by
      cases s with
      | nil => decide
      | cons a s' =>
        rw [List.head?_cons] at hh
        rw [List.cons_append, List.cons_append, List.head?_cons]
        exact hh
    rw [if_neg hh2, if_neg hh]
    have hap : (s ++ [13]) ++ [10] = s ++ [13, 10] := by simp
    rw [hap]

theorem decGo_wire : ∀ (ls : List (List Nat)),
    (∀ l ∈ ls, ∀ b ∈ l, cleanByte b) → (∀ l ∈ ls, l.length ≤ 996) →
    ∀ (o : List Nat) (z : Nat) (last : Nat),
    decGo last ⟨o, [], z, false⟩
      ((ls.map (fun l => stuffLine l ++ [13, 10])).flatten ++ [46, 13, 10]) =
      .ok ⟨o ++ linesToBytes ls, [], z, true⟩ := by
  intro ls
  induction ls with
  | nil =>
    intro _ _ o z last
    simp [decGo_cons, linesToBytes]
  | cons l rest ih =>
    intro hcl hlen o z last
    obtain ⟨hl0, hl10, hl13⟩ : (∀ b ∈ l, b ≠ 0) ∧ (∀ b ∈ l, b ≠ 10) ∧ (∀ b ∈ l, b ≠ 13) := by
      refine ⟨fun b hb => ?_, fun b hb => ?_, fun b hb => ?_⟩ <;>
        obtain ⟨h1, h2, h3⟩ := hcl l (List.mem_cons_self _ _) b hb
      · exact h1
      · exact h2
      · exact h3
    have hmem : ∀ b ∈ stuffLine l, b ≠ 10 ∧ b ≠ 13 := by
      intro b hb
      rw [stuffLine] at hb
      by_cases h46 : l.head? = some 46
      · rw [if_pos h46] at hb
        rcases List.mem_cons.mp hb with h | h
        · subst h; exact ⟨by decide, by decide⟩
        · exact ⟨hl10 b h, hl13 b h⟩
      · rw [if_neg h46] at hb
        exact ⟨hl10 b hb, hl13 b hb⟩
    have hslen : (stuffLine l).length ≤ 997 := by
      rw [stuffLine]
      by_cases h46 : l.head? = some 46
      · rw [if_pos h46]
        have := hlen l (List.mem_cons_self _ _)
        simp
        omega
      · rw [if_neg h46]
        have := hlen l (List.mem_cons_self _ _)
        omega
    have hshd : (stuffLine l).head? = some 46 → 2 ≤ (stuffLine l).length := by
      intro hh
      rw [stuffLine] at hh ⊢
      by_cases h46 : l.head? = some 46
      · rw [if_pos h46] at hh ⊢
        cases l with
        | nil => exact absurd h46 (by decide)
        | cons a t => simp
      · rw [if_neg h46] at hh ⊢
        exact absurd hh h46
    have hflat : ((l :: rest).map (fun l => stuffLine l ++ [13, 10])).flatten ++ [46, 13, 10] =
        ((stuffLine l) ++ [13, 10]) ++
          ((rest.map (fun l => stuffLine l ++ [13, 10])).flatten ++ [46, 13, 10]) := by
      simp
    rw [hflat]
    rw [decGo_line (stuffLine l) hmem hslen hshd _ last ⟨o, [], z, false⟩ rfl]
    have hpush : (if (stuffLine l).head? = some 46 then (stuffLine l).drop 1 else stuffLine l) = l := by
      by_cases h46 : l.head? = some 46
      · rw [stuffLine, if_pos h46]
        have g : (46 :: l).head? = some 46 := rfl
        rw [if_pos g]
        rfl
      · rw [stuffLine, if_neg h46, if_neg h46]
    show decGo 10 ⟨o ++ ((if (stuffLine l).head? = some 46 then (stuffLine l).drop 1
      else stuffLine l) ++ [13, 10]), [], z, false⟩ _ = _
    rw [hpush]
    rw [ih (fun x hx => hcl x (List.mem_cons_of_mem _ hx))
      (fun x hx => hlen x (List.mem_cons_of_mem _ hx)) (o ++ (l ++ [13, 10])) z 10]
    have hlb : (o ++ (l ++ [13, 10])) ++ linesToBytes rest = o ++ linesToBytes (l :: rest) := by
      simp [linesToBytes]
    rw [hlb]

/-- C1: corrected codec round-trip.  The original claim (any byte
sequence x without the raw end marker, any chunkings, decoder output =
x) fails: the encoder terminates a CRLF-less tail with its own CRLF, so
the decoder reproduces x with a CRLF appended; the decoder also reseeds
its cross-chunk lastChar from buffer index 999 rather than the last live
byte, breaking chunkings that split a CRLF; and lines beyond the length
the 1000-byte line buffer can hold raise a RangeError.  Amended: for a
nonempty sequence of CRLF-terminated lines of clean bytes (no NUL, LF or
CR) of at most 996 bytes each, any encoder-side chunking, and any
decoder-side chunking in which no chunk after the first starts with an
LF, the decoder emits exactly the original byte sequence and terminates
on the final dot line. -/
theorem c1_codec_roundtrip (ls : List (List Nat)) (hne : ls ≠ [])
    (hcl : ∀ l ∈ ls, ∀ b ∈ l, cleanByte b)
    (hlen : ∀ l ∈ ls, l.length ≤ 996)
    (encChunks : List (List Nat)) (henc : encChunks.flatten = linesToBytes ls)
    (decChunks : List (List Nat)) (hdec : decChunks.flatten = dotEncodeChunks encChunks)
    (hsplit : ∀ ch ∈ decChunks.drop 1, ∀ c, ch.head? = some c → c ≠ 10) :
    dotDecodeChunks decChunks = .ok ⟨linesToBytes ls, [], 0, true⟩ := by
  show decChunksGo ⟨[], [], 0, false⟩ decChunks = _
  rw [decChunksGo_whole decChunks ⟨[], [], 0, false⟩ rfl hsplit]
  rw [hdec, dotEncodeChunks_flatten, henc, dotEncode_wire ls hne hcl]
  have h := decGo_wire ls hcl hlen [] 0 0
  rw [List.nil_append] at h
  exact h

theorem c1_codec_roundtrip_witness :
    dotDecodeChunks [[97, 13, 10, 46, 13, 10]] = .ok ⟨[97, 13, 10], [], 0, true⟩ :=
  c1_codec_roundtrip [[97]] (by decide)
    (by
      intro l hl b hb
      rw [List.mem_singleton] at hl
      subst hl
      rw [List.mem_singleton] at hb
      subst hb
      exact ⟨by decide, by decide, by decide⟩)
    (by decide)
    [[97, 13, 10]] (by decide)
    [[97, 13, 10, 46, 13, 10]] (by decide)
    (by intro ch hch; simp at hch)

theorem c1_codec_roundtrip_cex :
    dotDecodeChunks [dotEncodeChunks [[97]]] = .ok ⟨[97, 13, 10], [], 0, true⟩ ∧
    [97, 13, 10] ≠ [97] := ⟨by decide, by decide⟩
